import Mathlib

/-!
Verification of the `rp` (resource protector) package: the `Protector`
coordinator (`rp/protector.go`) and the per-request record (`rp/request.go`).

Shallow embedding conventions:
* `time.Time` / `time.Duration` become abstract clock units (`Nat`); the zero
  `time.Time` is `Option.none`.
* buffered channels of capacity 1 become the count of buffered values (0 or 1);
  a send on a full capacity-1 channel blocks, which the embedding surfaces as
  an explicit `blocked` outcome or a disabled transition.
* uuid receipts become positive naturals drawn from a fresh counter; the zero
  value `Receipt("")` is `emptyReceipt = 0`.
* each lock-protected critical section of the source runs as one atomic step of
  a labelled transition system `Sys.step`; the availability callback's return
  value is an oracle input carried by the scheduling-pass event.
-/

namespace RP

/-- Abstract clock instants (the source uses `time.Time`). -/
abbrev Instant := Nat

/-- `Receipt` is the unique id of a request. The source uses uuid strings; the
model draws ids from a fresh counter starting at 1. -/
abbrev Receipt := Nat

/-- Models the zero value `Receipt("")` returned on a failed `Request`. -/
def emptyReceipt : Receipt := 0

/-- The error string constant `ErrOverMaximumTokens` of the rp package. -/
def ErrOverMaximumTokens : String := "more tokens requested than the maximum possible"

/-- The rp package's `Error` struct: resource name, operation, receipt, error
constant. -/
structure RPError where
  name : String
  op : String
  receipt : Receipt
  err : String
deriving DecidableEq

/-- The per-request record (`request` struct, request.go). The source's three
capacity-1 channels `grantedCh`, `releaseCh`, `touchCh` are modelled by their
buffered-value counts. The source's `id` field is carried as the key of the
protector's `requests` association list. `watchdog` and `waiting` are model
fields: `watchdog` is true once the protector has granted the request and
spawned its watchdog goroutine; `waiting` is true while a waiter is blocked
receiving on `grantedCh`. -/
structure Req where
  numTokens : Int
  grantedBuf : Nat
  releaseBuf : Nat
  touchBuf : Nat
  autoRelease : Nat
  active : Bool
  done : Bool
  watchdog : Bool
  waiting : Bool
deriving DecidableEq

/-- Outcome of the methods of `request` that send on a capacity-1 channel:
either the guard failed (no-op), or a value was buffered, or the buffer was
already full and the send blocks the caller. -/
inductive SigResult where
  | noop (r : Req)
  | sent (r : Req)
  | blocked (r : Req)
deriving DecidableEq

/-- Outcome of `request.waitUntilGranted`: either it returns a Bool, or the
receive on `grantedCh` blocks. -/
inductive WaitResult where
  | ret (b : Bool) (r : Req)
  | blocked (r : Req)
deriving DecidableEq

/-- `request.waitUntilGranted` (request.go lines 48-57): returns false if
`active || done`; otherwise sets `active` and receives on `grantedCh`
(consuming the buffered grant if present, blocking otherwise). -/
def waitUntilGrantedR (r : Req) : WaitResult :=
  if r.active || r.done then .ret false r
  else
    let r1 := { r with active := true }
    if r1.grantedBuf > 0 then .ret true { r1 with grantedBuf := r1.grantedBuf - 1 }
    else .blocked { r1 with waiting := true }

/-- `request.touch` (request.go lines 61-68): no-op unless `active && !done`;
otherwise sends on `touchCh`. The source's send is unconditional, so it blocks
when the capacity-1 buffer already holds an unconsumed touch. -/
def touchR (r : Req) : SigResult :=
  if !r.active || r.done then .noop r
  else if r.touchBuf = 0 then .sent { r with touchBuf := 1 }
  else .blocked r

/-- `request.release` (request.go lines 72-80): no-op unless `active && !done`;
otherwise marks `done` and sends on `releaseCh`. -/
def releaseR (r : Req) : SigResult :=
  if !r.active || r.done then .noop r
  else
    let r1 := { r with done := true }
    if r1.releaseBuf = 0 then .sent { r1 with releaseBuf := 1 }
    else .blocked r1

/-- `request.finished` (request.go lines 83-87). -/
def finishedR (r : Req) : Req := { r with done := true }

/-- The `Protector` struct (protector.go). The availability callback is
modelled by the flag `hasCb` (whether `availabilityCb != nil`); its integer
return value is an oracle input to each scheduling pass. `lastProcess = none`
models the zero `time.Time`. -/
structure Protector where
  name : String
  maxTokens : Int
  usedTokens : Int
  delayBetween : Nat
  releaseTimeout : Nat
  requests : List (Receipt × Req)
  pending : List Receipt
  lastProcess : Option Instant
  reprocessing : Bool
  hasCb : Bool
deriving DecidableEq

/-- `New` (protector.go lines 61-69). -/
def Protector.new (name : String) (delayBetween : Nat) (maxSimultaneous : Int)
    (releaseTimeout : Nat) : Protector :=
  { name := name
    maxTokens := maxSimultaneous
    usedTokens := 0
    delayBetween := delayBetween
    releaseTimeout := releaseTimeout
    requests := []
    pending := []
    lastProcess := none
    reprocessing := false
    hasCb := false }

/-- Lookup in the `requests` map (Go: `p.requests[receipt]`). -/
def lookupReq : List (Receipt × Req) → Receipt → Option Req
  | [], _ => none
  | (k, r) :: rest, rid => if k = rid then some r else lookupReq rest rid

/-- Pointwise update of the entry with the given key. -/
def updateReq (m : List (Receipt × Req)) (rid : Receipt) (f : Req → Req) :
    List (Receipt × Req) :=
  m.map fun e => if e.1 = rid then (e.1, f e.2) else e

/-- Deletion from the `requests` map (Go: `delete(p.requests, r.id)`). -/
def eraseReq (m : List (Receipt × Req)) (rid : Receipt) : List (Receipt × Req) :=
  m.filter fun e => e.1 ≠ rid

/-- The keys of the `requests` map. -/
def keys (m : List (Receipt × Req)) : List Receipt := m.map Prod.fst

/-- Result of `Protector.Request`: the updated protector plus the source's
return pair `(Receipt, error)`. -/
structure RequestResult where
  prot : Protector
  receipt : Receipt
  err : Option RPError
deriving DecidableEq

/-- The request record created by `Protector.Request` (protector.go lines
112-125): all channels empty, auto-release defaulting to a year (8760 hours
in the source; the unit is immaterial here). -/
def newReq (numTokens : Int) (autoRelease : Option Nat) : Req :=
  { numTokens := numTokens
    grantedBuf := 0
    releaseBuf := 0
    touchBuf := 0
    autoRelease := autoRelease.getD 8760
    active := false
    done := false
    watchdog := false
    waiting := false }

/-- `Protector.Request` (protector.go lines 107-139): reject with
`ErrOverMaximumTokens` when `numTokens > maxTokens`; otherwise create the
request record with fresh id `fresh` and append it to `pending` and the
`requests` map. -/
def Protector.request (p : Protector) (fresh : Receipt) (numTokens : Int)
    (autoRelease : Option Nat) : RequestResult :=
  if numTokens > p.maxTokens then
    { prot := p
      receipt := emptyReceipt
      err := some { name := p.name, op := "Request", receipt := emptyReceipt,
                    err := ErrOverMaximumTokens } }
  else
    { prot := { p with pending := p.pending ++ [fresh]
                       requests := (fresh, newReq numTokens autoRelease) :: p.requests }
      receipt := fresh
      err := none }

/-- `Protector.availableTokens` (protector.go lines 285-294): when the callback
is set, cap its return `cbVal` at `maxTokens` (no lower cap) and report
`checked = true`; otherwise `(0, false)`. -/
def Protector.availableTokens (p : Protector) (cbVal : Int) : Int × Bool :=
  if p.hasCb then
    (if cbVal > p.maxTokens then p.maxTokens else cbVal, true)
  else (0, false)

/-- The side effects of one scheduling pass: the granted request's id, if any
(which also spawns its watchdog goroutine), and whether a deferred
`reprocess()` was scheduled. -/
structure ProcessEffect where
  granted : Option Receipt
  reprocess : Bool
deriving DecidableEq

/-- `Protector.process` (protector.go lines 186-257), one scheduling pass under
the coordinator lock. Returns early when the pool is exhausted or the queue is
empty; consults the availability callback once; examines only the head of
`pending`; on probe denial records `lastProcess = now` and schedules a
reprocess; on a capacity miss for a multi-token request returns without
effects; otherwise grants: pops the head, adds its tokens to `usedTokens`,
sets `lastProcess = now`, buffers the grant on `grantedCh` and spawns the
watchdog, scheduling a reprocess when more requests remain. -/
def Protector.process (p : Protector) (now : Instant) (cbVal : Int) :
    Protector × ProcessEffect :=
  let pendingLen := p.pending.length
  if p.usedTokens = p.maxTokens ∨ pendingLen = 0 then (p, ⟨none, false⟩)
  else
    let av := p.availableTokens cbVal
    match p.pending with
    | [] => (p, ⟨none, false⟩)
    | rid :: rest =>
      match lookupReq p.requests rid with
      | none => (p, ⟨none, false⟩)
      | some r =>
        if av.2 = true ∧ av.1 < r.numTokens then
          ({ p with lastProcess := some now }, ⟨none, true⟩)
        else if r.numTokens > 1 ∧ p.maxTokens - p.usedTokens < r.numTokens then
          (p, ⟨none, false⟩)
        else
          ({ p with pending := rest
                    usedTokens := p.usedTokens + r.numTokens
                    lastProcess := some now
                    requests := updateReq p.requests rid
                      (fun q => { q with grantedBuf := 1, watchdog := true }) },
           ⟨some rid, decide (1 < pendingLen)⟩)

/-- The terminal block of a granted request's watchdog goroutine (protector.go
lines 236-248), run under the coordinator lock once a terminal select branch
was taken: return the tokens to the pool, delete the request from the map, and
report whether `reprocess()` is then invoked (queue non-empty). -/
def Protector.wdTerminal (p : Protector) (rid : Receipt) (n : Int) :
    Protector × Bool :=
  ({ p with usedTokens := p.usedTokens - n
            requests := eraseReq p.requests rid },
   decide (p.pending ≠ []))

/-- The wait `reprocess()` performs before invoking `process()` (protector.go
lines 268-275): with `since = now - lastProcess`, wait `delayBetween - since`
when positive. `time.Since` of the zero `time.Time` is effectively infinite,
so `lastProcess = none` yields no wait. -/
def reprocessWait (lastProcess : Option Instant) (delayBetween : Nat)
    (now : Instant) : Nat :=
  match lastProcess with
  | none => 0
  | some t => delayBetween - (now - t)

/-- Whole-system state: the protector, the global clock, the uuid fresh
counter, the number of dispatched but not yet executed direct `go p.process()`
goroutines (`directPending`; protector.go line 134), and ghost histories
recording the accepted submissions (in order), the grants (in order), the
clock readings at each grant (`grantTimes`), the clock readings at the grants
performed by reprocess-gated passes only (`gatedTimes`), and the requests
whose watchdog has taken a terminal branch. -/
structure Sys where
  p : Protector
  now : Instant
  nextId : Receipt
  directPending : Nat
  submitted : List Receipt
  granted : List Receipt
  grantTimes : List Instant
  gatedTimes : List Instant
  terminated : List Receipt
deriving DecidableEq

/-- The events of the transition system. Each event is one lock-protected
critical section of the source (or a clock advance). `wdRelease`, `wdTimeout`,
`wdAuto` and `wdTouch` are the four select branches of a granted request's
watchdog goroutine. A scheduling pass executes in one of two ways, carrying
the availability callback's return value as an oracle: `processRun` is a pass
reached through `reprocess()`, executing once the reprocess gate's wait has
elapsed; `processDirect` is the later, ungated execution of a `go p.process()`
goroutine dispatched directly by `Request` (protector.go line 134 performs no
delay check when it eventually runs). -/
inductive Event where
  | tick (d : Nat)
  | setCb (b : Bool)
  | submit (numTokens : Int) (autoRelease : Option Nat)
  | processRun (cbVal : Int)
  | processDirect (cbVal : Int)
  | wait (rid : Receipt)
  | waitResume (rid : Receipt)
  | touch (rid : Receipt)
  | release (rid : Receipt)
  | wdRelease (rid : Receipt)
  | wdTimeout (rid : Receipt)
  | wdAuto (rid : Receipt)
  | wdTouch (rid : Receipt)
deriving DecidableEq

/-- Replace the request stored under `rid`. -/
def Sys.setReq (s : Sys) (rid : Receipt) (r : Req) : Sys :=
  { s with p := { s.p with requests := updateReq s.p.requests rid (fun _ => r) } }

/-- A watchdog terminal branch for request `rid` holding `r`: run the terminal
block and record the termination in the ghost history. -/
def Sys.terminal (s : Sys) (rid : Receipt) (r : Req) : Sys :=
  { s with p := (s.p.wdTerminal rid r.numTokens).1
           terminated := s.terminated ++ [rid] }

/-- One atomic step. Disabled events (failed lookups, blocked channel
operations, a reprocess-path pass whose wait has not elapsed, a direct pass
with no outstanding dispatch) leave the state unchanged. `Protector.Request`
dispatches a direct `go p.process()` exactly when `lastProcess` is zero and
the queue it just appended to has length 1 (protector.go line 133); when that
goroutine later executes — the `processDirect` event — it performs NO delay
check. Every other invocation of `process()` goes through `reprocess()`,
which waits out `reprocessWait`; the `processRun` guard `reprocessWait = 0`
models such a pass executing at the instant that wait has elapsed. -/
def Sys.step (s : Sys) (e : Event) : Sys :=
  match e with
  | .tick d => { s with now := s.now + d }
  | .setCb b => { s with p := { s.p with hasCb := b } }
  | .submit n auto =>
    let res := s.p.request s.nextId n auto
    match res.err with
    | some _ => { s with p := res.prot }
    | none => { s with p := res.prot
                       nextId := s.nextId + 1
                       submitted := s.submitted ++ [res.receipt]
                       directPending := s.directPending +
                         (if res.prot.lastProcess = none ∧
                             res.prot.pending.length = 1 then 1 else 0) }
  | .processRun cbVal =>
    if reprocessWait s.p.lastProcess s.p.delayBetween s.now = 0 then
      let pr := s.p.process s.now cbVal
      match pr.2.granted with
      | some rid => { s with p := pr.1
                             granted := s.granted ++ [rid]
                             grantTimes := s.grantTimes ++ [s.now]
                             gatedTimes := s.gatedTimes ++ [s.now] }
      | none => { s with p := pr.1 }
    else s
  | .processDirect cbVal =>
    if s.directPending > 0 then
      let pr := s.p.process s.now cbVal
      match pr.2.granted with
      | some rid => { s with p := pr.1
                             directPending := s.directPending - 1
                             granted := s.granted ++ [rid]
                             grantTimes := s.grantTimes ++ [s.now] }
      | none => { s with p := pr.1
                         directPending := s.directPending - 1 }
    else s
  | .wait rid =>
    match lookupReq s.p.requests rid with
    | none => s
    | some r =>
      match waitUntilGrantedR r with
      | .ret _ r1 => s.setReq rid r1
      | .blocked r1 => s.setReq rid r1
  | .waitResume rid =>
    match lookupReq s.p.requests rid with
    | none => s
    | some r =>
      if r.waiting = true ∧ r.grantedBuf > 0 then
        s.setReq rid { r with grantedBuf := r.grantedBuf - 1, waiting := false }
      else s
  | .touch rid =>
    match lookupReq s.p.requests rid with
    | none => s
    | some r =>
      match touchR r with
      | .noop r1 => s.setReq rid r1
      | .sent r1 => s.setReq rid r1
      | .blocked _ => s
  | .release rid =>
    match lookupReq s.p.requests rid with
    | none => s
    | some r =>
      match releaseR r with
      | .noop r1 => s.setReq rid r1
      | .sent r1 => s.setReq rid r1
      | .blocked _ => s
  | .wdRelease rid =>
    match lookupReq s.p.requests rid with
    | none => s
    | some r =>
      if r.watchdog = true ∧ r.releaseBuf > 0 then
        s.terminal rid { r with releaseBuf := r.releaseBuf - 1 }
      else s
  | .wdTimeout rid =>
    match lookupReq s.p.requests rid with
    | none => s
    | some r =>
      if r.watchdog = true then s.terminal rid (finishedR r) else s
  | .wdAuto rid =>
    match lookupReq s.p.requests rid with
    | none => s
    | some r =>
      if r.watchdog = true then s.terminal rid (finishedR r) else s
  | .wdTouch rid =>
    match lookupReq s.p.requests rid with
    | none => s
    | some r =>
      if r.watchdog = true ∧ r.touchBuf > 0 then
        s.setReq rid { r with touchBuf := r.touchBuf - 1 }
      else s

/-- The initial system state over a freshly constructed protector. -/
def Sys.init (name : String) (delayBetween : Nat) (maxSimultaneous : Int)
    (releaseTimeout : Nat) : Sys :=
  { p := Protector.new name delayBetween maxSimultaneous releaseTimeout
    now := 0
    nextId := 1
    directPending := 0
    submitted := []
    granted := []
    grantTimes := []
    gatedTimes := []
    terminated := [] }

/-- Run a sequence of events. -/
def Sys.run (s : Sys) (evs : List Event) : Sys := evs.foldl Sys.step s

/-- Sum of `numTokens` over the requests whose watchdog is running, i.e. the
granted, not yet terminated requests. -/
def wdSum : List (Receipt × Req) → Int
  | [] => 0
  | (_, r) :: rest => (if r.watchdog then r.numTokens else 0) + wdSum rest

theorem updateReq_nil {rid : Receipt} {f : Req → Req} :
    updateReq [] rid f = [] := rfl

theorem updateReq_cons {k : Receipt} {r : Req} {rest : List (Receipt × Req)}
    {rid : Receipt} {f : Req → Req} :
    updateReq ((k, r) :: rest) rid f
      = (if k = rid then (k, f r) else (k, r)) :: updateReq rest rid f := by
  by_cases h : k = rid <;> simp [updateReq, h]

theorem eraseReq_nil {rid : Receipt} : eraseReq [] rid = [] := rfl

theorem eraseReq_cons {k : Receipt} {r : Req} {rest : List (Receipt × Req)}
    {rid : Receipt} :
    eraseReq ((k, r) :: rest) rid
      = if k = rid then eraseReq rest rid else (k, r) :: eraseReq rest rid := by
  by_cases h : k = rid <;> simp [eraseReq, h]

theorem keys_nil : keys [] = [] := rfl

theorem keys_cons {k : Receipt} {r : Req} {rest : List (Receipt × Req)} :
    keys ((k, r) :: rest) = k :: keys rest := rfl

theorem wdSum_cons {k : Receipt} {r : Req} {rest : List (Receipt × Req)} :
    wdSum ((k, r) :: rest)
      = (if r.watchdog then r.numTokens else 0) + wdSum rest := rfl


theorem lookupReq_cons {k : Receipt} {r : Req} {rest : List (Receipt × Req)}
    {rid : Receipt} :
    lookupReq ((k, r) :: rest) rid
      = if k = rid then some r else lookupReq rest rid := rfl

theorem lookupReq_isSome_iff {m : List (Receipt × Req)} {rid : Receipt} :
    (lookupReq m rid).isSome ↔ rid ∈ keys m := by
  induction m with
  | nil => simp [lookupReq, keys_nil]
  | cons e rest ih =>
    obtain ⟨k, r⟩ := e
    rw [keys_cons, lookupReq_cons, List.mem_cons]
    by_cases h : k = rid
    · subst h
      simp
    · rw [if_neg h, ih]
      constructor
      · exact Or.inr
      · rintro (h1 | h1)
        · exact absurd h1.symm h
        · exact h1

theorem lookupReq_eq_none {m : List (Receipt × Req)} {rid : Receipt}
    (h : rid ∉ keys m) : lookupReq m rid = none := by
  cases hl : lookupReq m rid with
  | none => rfl
  | some r => exact absurd (lookupReq_isSome_iff.mp (by simp [hl])) h

theorem lookupReq_mem {m : List (Receipt × Req)} {rid : Receipt} {r : Req}
    (h : lookupReq m rid = some r) : (rid, r) ∈ m := by
  induction m with
  | nil => simp [lookupReq] at h
  | cons e rest ih =>
    obtain ⟨k, q⟩ := e
    rw [lookupReq_cons] at h
    by_cases hk : k = rid
    · rw [if_pos hk] at h
      injection h with h2
      subst hk
      subst h2
      exact List.mem_cons_self _ _
    · rw [if_neg hk] at h
      exact List.mem_cons_of_mem _ (ih h)

theorem keys_updateReq {m : List (Receipt × Req)} {rid : Receipt} {f : Req → Req} :
    keys (updateReq m rid f) = keys m := by
  induction m with
  | nil => rfl
  | cons e rest ih =>
    obtain ⟨k, r⟩ := e
    rw [updateReq_cons]
    by_cases h : k = rid
    · rw [if_pos h, keys_cons, keys_cons, ih]
    · rw [if_neg h, keys_cons, keys_cons, ih]

theorem updateReq_of_not_mem {m : List (Receipt × Req)} {rid : Receipt}
    {f : Req → Req} (h : rid ∉ keys m) : updateReq m rid f = m := by
  induction m with
  | nil => rfl
  | cons e rest ih =>
    obtain ⟨k, r⟩ := e
    rw [keys_cons, List.mem_cons] at h
    push_neg at h
    rw [updateReq_cons, if_neg (fun hk => h.1 hk.symm), ih h.2]

theorem lookupReq_updateReq_self {m : List (Receipt × Req)} {rid : Receipt}
    {f : Req → Req} :
    lookupReq (updateReq m rid f) rid = (lookupReq m rid).map f := by
  induction m with
  | nil => rfl
  | cons e rest ih =>
    obtain ⟨k, r⟩ := e
    rw [updateReq_cons]
    by_cases h : k = rid
    · rw [if_pos h, lookupReq_cons, lookupReq_cons, if_pos h, if_pos h]
      rfl
    · rw [if_neg h, lookupReq_cons, lookupReq_cons, if_neg h, if_neg h, ih]

theorem lookupReq_updateReq_ne {m : List (Receipt × Req)} {rid k : Receipt}
    {f : Req → Req} (h : k ≠ rid) :
    lookupReq (updateReq m rid f) k = lookupReq m k := by
  induction m with
  | nil => rfl
  | cons e rest ih =>
    obtain ⟨k1, r⟩ := e
    rw [updateReq_cons]
    by_cases h1 : k1 = rid
    · rw [if_pos h1, lookupReq_cons, lookupReq_cons, ih]
      rw [h1, if_neg (Ne.symm h), if_neg (Ne.symm h)]
    · rw [if_neg h1, lookupReq_cons, lookupReq_cons, ih]

theorem keys_eraseReq {m : List (Receipt × Req)} {rid : Receipt} :
    keys (eraseReq m rid) = (keys m).filter (fun k => k ≠ rid) := by
  induction m with
  | nil => rfl
  | cons e rest ih =>
    obtain ⟨k, r⟩ := e
    rw [eraseReq_cons, keys_cons, List.filter_cons]
    by_cases h : k = rid
    · rw [if_pos h, ih]
      simp [h]
    · rw [if_neg h, keys_cons, ih]
      simp [h]

theorem lookupReq_eraseReq_self {m : List (Receipt × Req)} {rid : Receipt} :
    lookupReq (eraseReq m rid) rid = none := by
  apply lookupReq_eq_none
  rw [keys_eraseReq]
  simp [List.mem_filter]

theorem lookupReq_eraseReq_ne {m : List (Receipt × Req)} {rid k : Receipt}
    (h : k ≠ rid) : lookupReq (eraseReq m rid) k = lookupReq m k := by
  induction m with
  | nil => rfl
  | cons e rest ih =>
    obtain ⟨k1, r⟩ := e
    rw [eraseReq_cons]
    by_cases h1 : k1 = rid
    · rw [if_pos h1, ih, lookupReq_cons, h1, if_neg (Ne.symm h)]
    · rw [if_neg h1, lookupReq_cons, lookupReq_cons, ih]

theorem forall_mem_updateReq {m : List (Receipt × Req)} {rid : Receipt}
    {f : Req → Req} {P : Receipt × Req → Prop}
    (h : ∀ e ∈ m, P e) (hf : ∀ k r, P (k, r) → P (k, f r)) :
    ∀ e ∈ updateReq m rid f, P e := by
  intro e he
  simp only [updateReq, List.mem_map] at he
  obtain ⟨e0, he0, rfl⟩ := he
  by_cases hk : e0.1 = rid
  · rw [if_pos hk]
    exact hf e0.1 e0.2 (h e0 he0)
  · rw [if_neg hk]
    exact h e0 he0

theorem forall_mem_eraseReq {m : List (Receipt × Req)} {rid : Receipt}
    {P : Receipt × Req → Prop} (h : ∀ e ∈ m, P e) :
    ∀ e ∈ eraseReq m rid, P e := by
  intro e he
  exact h e (List.mem_of_mem_filter he)

theorem wdSum_nonneg {m : List (Receipt × Req)}
    (h : ∀ e ∈ m, 0 ≤ e.2.numTokens) : 0 ≤ wdSum m := by
  induction m with
  | nil => simp [wdSum]
  | cons e rest ih =>
    obtain ⟨k, r⟩ := e
    have h1 : 0 ≤ r.numTokens := h (k, r) (List.mem_cons_self _ _)
    have h2 : 0 ≤ wdSum rest := ih fun e he => h e (List.mem_cons_of_mem _ he)
    rw [wdSum_cons]
    by_cases hw : r.watchdog <;> simp only [hw, if_true, if_false] <;> omega

theorem wdSum_updateReq_congr {m : List (Receipt × Req)} {rid : Receipt}
    {f : Req → Req}
    (hf : ∀ r, (f r).watchdog = r.watchdog ∧ (f r).numTokens = r.numTokens) :
    wdSum (updateReq m rid f) = wdSum m := by
  induction m with
  | nil => rfl
  | cons e rest ih =>
    obtain ⟨k, r⟩ := e
    rw [updateReq_cons]
    by_cases h : k = rid
    · rw [if_pos h, wdSum_cons, wdSum_cons, (hf r).1, (hf r).2, ih]
    · rw [if_neg h, wdSum_cons, wdSum_cons, ih]

theorem wdSum_updateReq_grant {m : List (Receipt × Req)} {rid : Receipt} {r : Req}
    (hnd : (keys m).Nodup) (hl : lookupReq m rid = some r)
    (hw : r.watchdog = false) :
    wdSum (updateReq m rid (fun q => { q with grantedBuf := 1, watchdog := true }))
      = wdSum m + r.numTokens := by
  induction m with
  | nil => simp [lookupReq] at hl
  | cons e rest ih =>
    obtain ⟨k, q⟩ := e
    rw [keys_cons, List.nodup_cons] at hnd
    rw [updateReq_cons, lookupReq_cons] at *
    by_cases h : k = rid
    · rw [if_pos h] at hl
      injection hl with hl
      subst hl
      rw [if_pos h,
        updateReq_of_not_mem (f := fun q => { q with grantedBuf := 1, watchdog := true })
          (h ▸ hnd.1),
        wdSum_cons, wdSum_cons, hw]
      simp
      ring
    · rw [if_neg h] at hl
      rw [if_neg h, wdSum_cons, wdSum_cons, ih hnd.2 hl]
      ring

theorem wdSum_eraseReq {m : List (Receipt × Req)} {rid : Receipt} {r : Req}
    (hnd : (keys m).Nodup) (hl : lookupReq m rid = some r)
    (hw : r.watchdog = true) :
    wdSum (eraseReq m rid) = wdSum m - r.numTokens := by
  induction m with
  | nil => simp [lookupReq] at hl
  | cons e rest ih =>
    obtain ⟨k, q⟩ := e
    rw [keys_cons, List.nodup_cons] at hnd
    rw [eraseReq_cons, lookupReq_cons] at *
    by_cases h : k = rid
    · rw [if_pos h] at hl
      injection hl with hl
      subst hl
      have he : eraseReq rest rid = rest := by
        have hne : ∀ e ∈ rest, ¬ e.1 = rid := by
          intro e he hek
          exact (h ▸ hnd.1) (hek ▸ List.mem_map_of_mem Prod.fst he)
        simp only [eraseReq]
        rw [List.filter_eq_self]
        intro e he
        simpa using hne e he
      rw [if_pos h, he, wdSum_cons, hw]
      simp only [if_true]
      ring
    · rw [if_neg h] at hl
      rw [if_neg h, wdSum_cons, wdSum_cons, ih hnd.2 hl]
      ring

theorem wdSum_lower {m : List (Receipt × Req)} {rid : Receipt} {r : Req}
    (hl : lookupReq m rid = some r) (hw : r.watchdog = true)
    (hpos : ∀ e ∈ m, 0 ≤ e.2.numTokens) : r.numTokens ≤ wdSum m := by
  induction m with
  | nil => simp [lookupReq] at hl
  | cons e rest ih =>
    obtain ⟨k, q⟩ := e
    have hrest : 0 ≤ wdSum rest :=
      wdSum_nonneg fun e he => hpos e (List.mem_cons_of_mem _ he)
    rw [lookupReq_cons] at hl
    rw [wdSum_cons]
    by_cases h : k = rid
    · rw [if_pos h] at hl
      injection hl with hl
      subst hl
      rw [hw]
      simp only [if_true]
      omega
    · rw [if_neg h] at hl
      have hq : 0 ≤ q.numTokens := hpos (k, q) (List.mem_cons_self _ _)
      have h3 := ih hl (fun e he => hpos e (List.mem_cons_of_mem _ he))
      by_cases hwq : q.watchdog <;> simp only [hwq, if_true, if_false] <;> omega

/-- A Nodup-aware variant of `wdSum_updateReq_congr`: updating the entry at
`rid` with a function that preserves its watchdog flag and token count leaves
the watchdog sum unchanged. -/
theorem wdSum_updateReq_congr1 {m : List (Receipt × Req)} {rid : Receipt}
    {r : Req} {f : Req → Req} (hnd : (keys m).Nodup)
    (hl : lookupReq m rid = some r)
    (hw : (f r).watchdog = r.watchdog) (hn : (f r).numTokens = r.numTokens) :
    wdSum (updateReq m rid f) = wdSum m := by
  induction m with
  | nil => rfl
  | cons e rest ih =>
    obtain ⟨k, q⟩ := e
    rw [keys_cons, List.nodup_cons] at hnd
    rw [lookupReq_cons] at hl
    rw [updateReq_cons]
    by_cases h : k = rid
    · rw [if_pos h] at hl
      injection hl with hl
      subst hl
      rw [if_pos h, updateReq_of_not_mem (h ▸ hnd.1), wdSum_cons, wdSum_cons,
        hw, hn]
    · rw [if_neg h] at hl
      rw [if_neg h, wdSum_cons, wdSum_cons, ih hnd.2 hl]

/-- A Nodup-aware variant of `forall_mem_updateReq`: it is enough to check the
property at the image of the one entry that is actually rewritten. -/
theorem forall_mem_updateReq1 {m : List (Receipt × Req)} {rid : Receipt}
    {r : Req} {f : Req → Req} {P : Receipt × Req → Prop}
    (hnd : (keys m).Nodup) (hl : lookupReq m rid = some r)
    (h : ∀ e ∈ m, P e) (hfr : P (rid, f r)) :
    ∀ e ∈ updateReq m rid f, P e := by
  induction m with
  | nil => intro e he; simp [updateReq_nil] at he
  | cons e0 rest ih =>
    obtain ⟨k, q⟩ := e0
    rw [keys_cons, List.nodup_cons] at hnd
    rw [lookupReq_cons] at hl
    rw [updateReq_cons]
    by_cases hk : k = rid
    · rw [if_pos hk] at hl
      injection hl with hl
      subst hl
      subst hk
      rw [if_pos rfl, updateReq_of_not_mem hnd.1]
      intro e he
      rcases List.mem_cons.mp he with he1 | he1
      · subst he1; exact hfr
      · exact h e (List.mem_cons_of_mem _ he1)
    · rw [if_neg hk] at hl
      rw [if_neg hk]
      intro e he
      rcases List.mem_cons.mp he with he1 | he1
      · subst he1; exact h _ (List.mem_cons_self _ _)
      · exact ih hnd.2 hl (fun e2 he2 => h e2 (List.mem_cons_of_mem _ he2)) e he1

/-- Structural invariant of reachable system states: the `requests` map has
distinct keys, all below the fresh counter; `pending` lists distinct keys of
the map, and a stored request's watchdog runs exactly when the request is no
longer pending; the submission history is the grant history followed by the
pending queue; `lastProcess` never lies in the future; consecutive
reprocess-gated grant instants are at least `delayBetween` apart and
`lastProcess` is at least the last such instant (a direct, ungated pass only
moves `lastProcess` forward, so it cannot break this chain); terminated
requests are recorded once each and have been removed from the map. -/
structure InvC (s : Sys) : Prop where
  keysNodup : (keys s.p.requests).Nodup
  keysLt : ∀ e ∈ s.p.requests, e.1 < s.nextId
  pendingNodup : s.p.pending.Nodup
  pendingSub : ∀ rid ∈ s.p.pending, rid ∈ keys s.p.requests
  pendingWd : ∀ e ∈ s.p.requests, (e.2.watchdog = false ↔ e.1 ∈ s.p.pending)
  fifo : s.submitted = s.granted ++ s.p.pending
  lastLe : ∀ t, s.p.lastProcess = some t → t ≤ s.now
  chain : List.Chain' (fun a b => a + s.p.delayBetween ≤ b) s.gatedTimes
  gLast : ∀ gt, s.gatedTimes.getLast? = some gt →
    ∃ t, s.p.lastProcess = some t ∧ gt ≤ t
  termNodup : s.terminated.Nodup
  termLt : ∀ rid ∈ s.terminated, rid < s.nextId
  termDisj : ∀ rid ∈ s.terminated, rid ∉ keys s.p.requests

/-- Token-accounting invariant (holds on traces whose submissions all carry a
nonnegative `numTokens`): `usedTokens` is the token sum over the granted,
unterminated requests, it never exceeds `maxTokens`, and every stored request
carries a nonnegative count. -/
structure InvT (s : Sys) : Prop where
  sum : s.p.usedTokens = wdSum s.p.requests
  usedLe : s.p.usedTokens ≤ s.p.maxTokens
  tokNonneg : ∀ e ∈ s.p.requests, 0 ≤ e.2.numTokens

/-- The trace hypothesis for the token invariant: submissions request a
nonnegative number of tokens. -/
def EventOk : Event → Prop
  | .submit n _ => 0 ≤ n
  | _ => True

theorem mem_keys_lt {s : Sys} (hC : InvC s) {rid : Receipt}
    (h : rid ∈ keys s.p.requests) : rid < s.nextId := by
  obtain ⟨e, he, hek⟩ := List.mem_map.mp h
  exact hek ▸ hC.keysLt e he

theorem invC_setReq {s : Sys} {rid : Receipt} {r r1 : Req} (hC : InvC s)
    (hl : lookupReq s.p.requests rid = some r)
    (hw : r1.watchdog = r.watchdog) :
    InvC (s.setReq rid r1) := by
  have hP := hC.pendingWd _ (lookupReq_mem hl)
  refine ⟨?_, ?_, hC.pendingNodup, ?_, ?_, hC.fifo, hC.lastLe, hC.chain,
    hC.gLast, hC.termNodup, hC.termLt, ?_⟩
  · show (keys (updateReq s.p.requests rid (fun _ => r1))).Nodup
    rw [keys_updateReq]
    exact hC.keysNodup
  · show ∀ e ∈ updateReq s.p.requests rid (fun _ => r1), e.1 < s.nextId
    exact forall_mem_updateReq hC.keysLt (fun k q h => h)
  · show ∀ id ∈ s.p.pending, id ∈ keys (updateReq s.p.requests rid (fun _ => r1))
    intro id hid
    rw [keys_updateReq]
    exact hC.pendingSub id hid
  · show ∀ e ∈ updateReq s.p.requests rid (fun _ => r1),
      (e.2.watchdog = false ↔ e.1 ∈ s.p.pending)
    refine forall_mem_updateReq1 hC.keysNodup hl hC.pendingWd ?_
    show (r1.watchdog = false ↔ rid ∈ s.p.pending)
    rw [hw]
    exact hP
  · show ∀ id ∈ s.terminated, id ∉ keys (updateReq s.p.requests rid (fun _ => r1))
    intro id hid
    rw [keys_updateReq]
    exact hC.termDisj id hid

theorem invT_setReq {s : Sys} {rid : Receipt} {r r1 : Req} (hC : InvC s)
    (hT : InvT s) (hl : lookupReq s.p.requests rid = some r)
    (hw : r1.watchdog = r.watchdog) (hn : r1.numTokens = r.numTokens) :
    InvT (s.setReq rid r1) := by
  refine ⟨?_, hT.usedLe, ?_⟩
  · show s.p.usedTokens = wdSum (updateReq s.p.requests rid (fun _ => r1))
    rw [wdSum_updateReq_congr1 hC.keysNodup hl hw hn]
    exact hT.sum
  · show ∀ e ∈ updateReq s.p.requests rid (fun _ => r1), 0 ≤ e.2.numTokens
    refine forall_mem_updateReq1 hC.keysNodup hl hT.tokNonneg ?_
    show 0 ≤ r1.numTokens
    rw [hn]
    exact hT.tokNonneg _ (lookupReq_mem hl)

theorem invC_terminal {s : Sys} {rid : Receipt} {r r1 : Req} (hC : InvC s)
    (hl : lookupReq s.p.requests rid = some r) (hw : r.watchdog = true) :
    InvC (s.terminal rid r1) := by
  have hkm : rid ∈ keys s.p.requests := lookupReq_isSome_iff.mp (by simp [hl])
  have hnp : rid ∉ s.p.pending := by
    intro hmem
    have hcon := (hC.pendingWd _ (lookupReq_mem hl)).mpr hmem
    rw [hw] at hcon
    exact Bool.noConfusion hcon
  refine ⟨?_, ?_, hC.pendingNodup, ?_, ?_, hC.fifo, hC.lastLe, hC.chain,
    hC.gLast, ?_, ?_, ?_⟩
  · show (keys (eraseReq s.p.requests rid)).Nodup
    rw [keys_eraseReq]
    exact hC.keysNodup.filter _
  · show ∀ e ∈ eraseReq s.p.requests rid, e.1 < s.nextId
    exact forall_mem_eraseReq hC.keysLt
  · show ∀ id ∈ s.p.pending, id ∈ keys (eraseReq s.p.requests rid)
    intro id hid
    rw [keys_eraseReq, List.mem_filter]
    refine ⟨hC.pendingSub id hid, ?_⟩
    simp only [decide_eq_true_eq]
    intro hik
    exact hnp (hik ▸ hid)
  · show ∀ e ∈ eraseReq s.p.requests rid,
      (e.2.watchdog = false ↔ e.1 ∈ s.p.pending)
    exact forall_mem_eraseReq hC.pendingWd
  · show (s.terminated ++ [rid]).Nodup
    refine hC.termNodup.append (List.nodup_singleton _) ?_
    intro t ht ht2
    rw [List.mem_singleton] at ht2
    exact hC.termDisj t ht (ht2 ▸ hkm)
  · show ∀ id ∈ s.terminated ++ [rid], id < s.nextId
    intro id hid
    rcases List.mem_append.mp hid with h1 | h1
    · exact hC.termLt id h1
    · rw [List.mem_singleton] at h1
      subst h1
      exact mem_keys_lt hC hkm
  · show ∀ id ∈ s.terminated ++ [rid], id ∉ keys (eraseReq s.p.requests rid)
    intro id hid
    rw [keys_eraseReq, List.mem_filter]
    rcases List.mem_append.mp hid with h1 | h1
    · intro hcon
      exact hC.termDisj id h1 hcon.1
    · rw [List.mem_singleton] at h1
      subst h1
      intro hcon
      have h2 := hcon.2
      simp at h2

theorem invT_terminal {s : Sys} {rid : Receipt} {r r1 : Req} (hC : InvC s)
    (hT : InvT s) (hl : lookupReq s.p.requests rid = some r)
    (hw : r.watchdog = true) (hn : r1.numTokens = r.numTokens) :
    InvT (s.terminal rid r1) := by
  have h0 : 0 ≤ r.numTokens := hT.tokNonneg _ (lookupReq_mem hl)
  have h1 := hT.usedLe
  refine ⟨?_, ?_, ?_⟩
  · show s.p.usedTokens - r1.numTokens = wdSum (eraseReq s.p.requests rid)
    rw [wdSum_eraseReq hC.keysNodup hl hw, hT.sum, hn]
  · show s.p.usedTokens - r1.numTokens ≤ s.p.maxTokens
    omega
  · show ∀ e ∈ eraseReq s.p.requests rid, 0 ≤ e.2.numTokens
    exact forall_mem_eraseReq hT.tokNonneg


theorem touchR_noop {r r1 : Req} (h : touchR r = .noop r1) : r1 = r := by
  unfold touchR at h
  split_ifs at h <;> simp_all

theorem touchR_sent {r r1 : Req} (h : touchR r = .sent r1) :
    r1 = { r with touchBuf := 1 } := by
  unfold touchR at h
  split_ifs at h <;> simp_all

theorem releaseR_noop {r r1 : Req} (h : releaseR r = .noop r1) : r1 = r := by
  simp only [releaseR] at h
  split_ifs at h <;> simp_all

theorem releaseR_sent {r r1 : Req} (h : releaseR r = .sent r1) :
    r1 = { r with releaseBuf := 1, done := true } := by
  simp only [releaseR] at h
  split_ifs at h <;> simp_all

theorem waitR_ret {r r1 : Req} {b : Bool} (h : waitUntilGrantedR r = .ret b r1) :
    r1 = r ∨ r1 = { r with active := true, grantedBuf := r.grantedBuf - 1 } := by
  simp only [waitUntilGrantedR] at h
  split_ifs at h <;> simp_all

theorem waitR_blocked {r r1 : Req} (h : waitUntilGrantedR r = .blocked r1) :
    r1 = { r with active := true, waiting := true } := by
  simp only [waitUntilGrantedR] at h
  split_ifs at h <;> simp_all

/-- The three possible outcomes of one scheduling pass: no state change (early
return, unreachable-lookup fallback, or capacity miss for a multi-token
request); a probe denial, which only records `lastProcess = now` and schedules
a reprocess; or a grant of the head request, possible only when the pool was
not exhausted and, for a multi-token request, only when it fits in the
remaining capacity. -/
theorem process_cases (p : Protector) (now : Instant) (cbVal : Int) :
    p.process now cbVal = (p, ⟨none, false⟩) ∨
    p.process now cbVal = ({ p with lastProcess := some now }, ⟨none, true⟩) ∨
    (∃ rid rest r, p.pending = rid :: rest ∧ lookupReq p.requests rid = some r ∧
      p.usedTokens ≠ p.maxTokens ∧
      (1 < r.numTokens → r.numTokens ≤ p.maxTokens - p.usedTokens) ∧
      p.process now cbVal =
        ({ p with pending := rest
                  usedTokens := p.usedTokens + r.numTokens
                  lastProcess := some now
                  requests := updateReq p.requests rid
                    (fun q => { q with grantedBuf := 1, watchdog := true }) },
         ⟨some rid, decide (1 < p.pending.length)⟩)) := by
  by_cases h1 : p.usedTokens = p.maxTokens ∨ p.pending.length = 0
  · left
    simp only [Protector.process, if_pos h1]
  · rcases hp : p.pending with _ | ⟨rid, rest⟩
    · rw [hp] at h1
      exact absurd (Or.inr rfl) h1
    · rw [hp] at h1
      rcases hl : lookupReq p.requests rid with _ | r
      · left
        simp only [Protector.process, if_neg h1, hp, hl]
      · by_cases h2 : (p.availableTokens cbVal).2 = true ∧
          (p.availableTokens cbVal).1 < r.numTokens
        · right; left
          simp only [Protector.process, if_neg h1, hp, hl, if_pos h2]
        · by_cases h3 : r.numTokens > 1 ∧
            p.maxTokens - p.usedTokens < r.numTokens
          · left
            simp only [Protector.process, if_neg h1, hp, hl, if_neg h2,
              if_pos h3]
          · right; right
            push_neg at h1 h3
            refine ⟨rid, rest, r, rfl, hl, h1.1, h3, ?_⟩
            simp only [Protector.process, if_neg (not_or.mpr ⟨h1.1, h1.2⟩), hp,
              hl, if_neg (not_and.mpr (fun ha hb => absurd (h3 ha) (not_le.mpr hb))),
              if_neg h2]

theorem gate_le {lp : Option Instant} {d : Nat} {now t : Instant}
    (hg : reprocessWait lp d now = 0) (hl : lp = some t) (hle : t ≤ now) :
    t + d ≤ now := by
  subst hl
  have hg2 : d - (now - t) = 0 := hg
  have h3 : d ≤ now - t := Nat.sub_eq_zero_iff_le.mp hg2
  have h4 := Nat.add_le_add_left h3 t
  rwa [Nat.add_sub_cancel' hle] at h4

theorem chain_concat {d : Nat} {l : List Nat} {a : Nat}
    (hc : List.Chain' (fun x y => x + d ≤ y) l)
    (ha : ∀ x, l.getLast? = some x → x + d ≤ a) :
    List.Chain' (fun x y => x + d ≤ y) (l ++ [a]) := by
  rw [List.chain'_append]
  refine ⟨hc, List.chain'_singleton _, ?_⟩
  intro x hx y hy
  simp only [List.head?_cons, Option.mem_def, Option.some.injEq] at hy
  subst hy
  exact ha x (Option.mem_def.mp hx)


theorem mem_updateReq_elim {m : List (Receipt × Req)} {rid : Receipt}
    {f : Req → Req} {e : Receipt × Req} (hnd : (keys m).Nodup)
    (he : e ∈ updateReq m rid f) :
    (e ∈ m ∧ e.1 ≠ rid) ∨ (∃ r0, lookupReq m rid = some r0 ∧ e = (rid, f r0)) := by
  induction m with
  | nil => simp [updateReq_nil] at he
  | cons e0 rest ih =>
    obtain ⟨k, q⟩ := e0
    rw [keys_cons, List.nodup_cons] at hnd
    rw [updateReq_cons] at he
    by_cases hk : k = rid
    · subst hk
      rw [if_pos rfl, updateReq_of_not_mem hnd.1] at he
      rcases List.mem_cons.mp he with he1 | he1
      · right
        exact ⟨q, by rw [lookupReq_cons, if_pos rfl], he1⟩
      · left
        refine ⟨List.mem_cons_of_mem _ he1, ?_⟩
        intro hek
        exact hnd.1 (hek ▸ List.mem_map_of_mem Prod.fst he1)
    · rw [if_neg hk] at he
      rcases List.mem_cons.mp he with he1 | he1
      · left
        subst he1
        exact ⟨List.mem_cons_self _ _, hk⟩
      · rcases ih hnd.2 he1 with ⟨h2, h3⟩ | ⟨r0, h2, h3⟩
        · exact Or.inl ⟨List.mem_cons_of_mem _ h2, h3⟩
        · right
          refine ⟨r0, ?_, h3⟩
          rw [lookupReq_cons, if_neg hk]
          exact h2

theorem getLast?_snoc {l : List Nat} {a : Nat} : (l ++ [a]).getLast? = some a := by
  induction l with
  | nil => rfl
  | cons x xs ih =>
    cases xs with
    | nil => rfl
    | cons y ys =>
      rw [show ((x :: y :: ys) ++ [a]) = x :: y :: (ys ++ [a]) from rfl,
        List.getLast?_cons_cons]
      exact ih

/-- Every event of the transition system preserves the structural
invariant. -/
theorem invC_step (s : Sys) (e : Event) (hC : InvC s) : InvC (s.step e) := by
  cases e with
  | tick d =>
    refine ⟨hC.keysNodup, hC.keysLt, hC.pendingNodup, hC.pendingSub,
      hC.pendingWd, hC.fifo, ?_, hC.chain, hC.gLast, hC.termNodup, hC.termLt,
      hC.termDisj⟩
    intro t ht
    exact le_trans (hC.lastLe t ht) (Nat.le_add_right _ _)
  | setCb b =>
    exact ⟨hC.keysNodup, hC.keysLt, hC.pendingNodup, hC.pendingSub,
      hC.pendingWd, hC.fifo, hC.lastLe, hC.chain, hC.gLast, hC.termNodup,
      hC.termLt, hC.termDisj⟩
  | submit n auto =>
    by_cases hg : n > s.p.maxTokens
    · have hstep : s.step (.submit n auto) = s := by
        simp only [Sys.step, Protector.request, if_pos hg]
      rw [hstep]
      exact hC
    · have hstep : s.step (.submit n auto) =
        { s with p := { s.p with pending := s.p.pending ++ [s.nextId]
                                 requests := (s.nextId, newReq n auto) :: s.p.requests }
                 nextId := s.nextId + 1
                 submitted := s.submitted ++ [s.nextId]
                 directPending := s.directPending +
                   (if s.p.lastProcess = none ∧
                       (s.p.pending ++ [s.nextId]).length = 1 then 1 else 0) } := by
        simp only [Sys.step, Protector.request, if_neg hg]
      rw [hstep]
      have hfk : s.nextId ∉ keys s.p.requests :=
        fun h => absurd (mem_keys_lt hC h) (lt_irrefl _)
      have hfp : s.nextId ∉ s.p.pending :=
        fun h => absurd (mem_keys_lt hC (hC.pendingSub _ h)) (lt_irrefl _)
      refine ⟨?_, ?_, ?_, ?_, ?_, ?_, hC.lastLe, hC.chain, hC.gLast,
        hC.termNodup, ?_, ?_⟩
      · show (keys ((s.nextId, newReq n auto) :: s.p.requests)).Nodup
        rw [keys_cons]
        exact List.nodup_cons.mpr ⟨hfk, hC.keysNodup⟩
      · show ∀ e ∈ (s.nextId, newReq n auto) :: s.p.requests, e.1 < s.nextId + 1
        intro e he
        rcases List.mem_cons.mp he with he1 | he1
        · subst he1
          exact Nat.lt_succ_self _
        · exact Nat.lt_succ_of_lt (hC.keysLt e he1)
      · show (s.p.pending ++ [s.nextId]).Nodup
        refine hC.pendingNodup.append (List.nodup_singleton _) ?_
        intro a ha ha2
        rw [List.mem_singleton] at ha2
        subst ha2
        exact hfp ha
      · show ∀ id ∈ s.p.pending ++ [s.nextId],
          id ∈ keys ((s.nextId, newReq n auto) :: s.p.requests)
        intro id hid
        rw [keys_cons, List.mem_cons]
        rcases List.mem_append.mp hid with h1 | h1
        · exact Or.inr (hC.pendingSub id h1)
        · rw [List.mem_singleton] at h1
          exact Or.inl h1
      · show ∀ e ∈ (s.nextId, newReq n auto) :: s.p.requests,
          (e.2.watchdog = false ↔ e.1 ∈ s.p.pending ++ [s.nextId])
        intro e he
        rcases List.mem_cons.mp he with he1 | he1
        · subst he1
          constructor
          · intro _
            exact List.mem_append.mpr (Or.inr (List.mem_singleton.mpr rfl))
          · intro _
            rfl
        · have hlt := hC.keysLt e he1
          rw [List.mem_append, List.mem_singleton, hC.pendingWd e he1]
          constructor
          · exact Or.inl
          · rintro (h1 | h1)
            · exact h1
            · rw [h1] at hlt
              exact absurd hlt (lt_irrefl _)
      · show s.submitted ++ [s.nextId] = s.granted ++ (s.p.pending ++ [s.nextId])
        rw [hC.fifo, List.append_assoc]
      · show ∀ id ∈ s.terminated, id < s.nextId + 1
        intro id hid
        exact Nat.lt_succ_of_lt (hC.termLt id hid)
      · show ∀ id ∈ s.terminated,
          id ∉ keys ((s.nextId, newReq n auto) :: s.p.requests)
        intro id hid
        rw [keys_cons, List.mem_cons]
        rintro (h1 | h1)
        · have := hC.termLt id hid
          rw [h1] at this
          exact absurd this (lt_irrefl _)
        · exact hC.termDisj id hid h1
  | processRun cbVal =>
    by_cases hgate : reprocessWait s.p.lastProcess s.p.delayBetween s.now = 0
    · rcases process_cases s.p s.now cbVal with hpc | hpc |
        ⟨rid, rest, r, hp, hl, hused, hcap, hpc⟩
      · have hstep : s.step (.processRun cbVal) = s := by
          simp only [Sys.step, if_pos hgate, hpc]
        rw [hstep]
        exact hC
      · have hstep : s.step (.processRun cbVal) =
            { s with p := { s.p with lastProcess := some s.now } } := by
          simp only [Sys.step, if_pos hgate, hpc]
        rw [hstep]
        refine ⟨hC.keysNodup, hC.keysLt, hC.pendingNodup, hC.pendingSub,
          hC.pendingWd, hC.fifo, ?_, hC.chain, ?_, hC.termNodup, hC.termLt,
          hC.termDisj⟩
        · intro t ht
          injection ht with ht
          exact le_of_eq ht.symm
        · intro gt hgt
          obtain ⟨t, hlp, hle⟩ := hC.gLast gt hgt
          exact ⟨s.now, rfl, le_trans hle (hC.lastLe t hlp)⟩
      · have hstep : s.step (.processRun cbVal) =
            { s with
              p := { s.p with
                     pending := rest
                     usedTokens := s.p.usedTokens + r.numTokens
                     lastProcess := some s.now
                     requests := updateReq s.p.requests rid
                       (fun q => { q with grantedBuf := 1, watchdog := true }) }
              granted := s.granted ++ [rid]
              grantTimes := s.grantTimes ++ [s.now]
              gatedTimes := s.gatedTimes ++ [s.now] } := by
          simp only [Sys.step, if_pos hgate, hpc]
        rw [hstep]
        have hmem := lookupReq_mem hl
        have hridp : rid ∈ s.p.pending := by
          rw [hp]
          exact List.mem_cons_self _ _
        have hnodup1 : rid ∉ rest ∧ rest.Nodup := by
          have h2 := hC.pendingNodup
          rw [hp, List.nodup_cons] at h2
          exact h2
        refine ⟨?_, ?_, hnodup1.2, ?_, ?_, ?_, ?_, ?_, ?_, hC.termNodup,
          hC.termLt, ?_⟩
        · show (keys (updateReq s.p.requests rid
            (fun q => { q with grantedBuf := 1, watchdog := true }))).Nodup
          rw [keys_updateReq]
          exact hC.keysNodup
        · show ∀ e ∈ updateReq s.p.requests rid
            (fun q => { q with grantedBuf := 1, watchdog := true }),
            e.1 < s.nextId
          exact forall_mem_updateReq hC.keysLt (fun k q h => h)
        · show ∀ id ∈ rest, id ∈ keys (updateReq s.p.requests rid
            (fun q => { q with grantedBuf := 1, watchdog := true }))
          intro id hid
          rw [keys_updateReq]
          refine hC.pendingSub id ?_
          rw [hp]
          exact List.mem_cons_of_mem _ hid
        · show ∀ e ∈ updateReq s.p.requests rid
            (fun q => { q with grantedBuf := 1, watchdog := true }),
            (e.2.watchdog = false ↔ e.1 ∈ rest)
          intro e he
          rcases mem_updateReq_elim hC.keysNodup he with ⟨h2, h3⟩ | ⟨r0, h2, h3⟩
          · have h4 := hC.pendingWd e h2
            rw [hp, List.mem_cons] at h4
            rw [h4]
            constructor
            · rintro (h5 | h5)
              · exact absurd h5 h3
              · exact h5
            · exact Or.inr
          · rw [hl] at h2
            injection h2 with h2
            subst h2
            rw [h3]
            simp [hnodup1.1]
        · show s.submitted = (s.granted ++ [rid]) ++ rest
          rw [hC.fifo, hp, List.append_assoc]
          rfl
        · intro t ht
          injection ht with ht
          exact le_of_eq ht.symm
        · show List.Chain' (fun a b => a + s.p.delayBetween ≤ b)
            (s.gatedTimes ++ [s.now])
          refine chain_concat hC.chain ?_
          intro x hx
          obtain ⟨t, hlp, hle⟩ := hC.gLast x hx
          have h5 := gate_le hgate hlp (hC.lastLe t hlp)
          exact le_trans (Nat.add_le_add_right hle s.p.delayBetween) h5
        · intro gt hgt
          rw [getLast?_snoc] at hgt
          injection hgt with hgt
          exact ⟨s.now, rfl, le_of_eq hgt.symm⟩
        · show ∀ id ∈ s.terminated, id ∉ keys (updateReq s.p.requests rid
            (fun q => { q with grantedBuf := 1, watchdog := true }))
          intro id hid
          rw [keys_updateReq]
          exact hC.termDisj id hid
    · have hstep : s.step (.processRun cbVal) = s := by
        simp only [Sys.step, if_neg hgate]
      rw [hstep]
      exact hC
  | processDirect cbVal =>
    by_cases hdir : s.directPending > 0
    · rcases process_cases s.p s.now cbVal with hpc | hpc |
        ⟨rid, rest, r, hp, hl, hused, hcap, hpc⟩
      · have hstep : s.step (.processDirect cbVal) =
            { s with directPending := s.directPending - 1 } := by
          simp only [Sys.step, if_pos hdir, hpc]
        rw [hstep]
        exact ⟨hC.keysNodup, hC.keysLt, hC.pendingNodup, hC.pendingSub,
          hC.pendingWd, hC.fifo, hC.lastLe, hC.chain, hC.gLast, hC.termNodup,
          hC.termLt, hC.termDisj⟩
      · have hstep : s.step (.processDirect cbVal) =
            { s with p := { s.p with lastProcess := some s.now }
                     directPending := s.directPending - 1 } := by
          simp only [Sys.step, if_pos hdir, hpc]
        rw [hstep]
        refine ⟨hC.keysNodup, hC.keysLt, hC.pendingNodup, hC.pendingSub,
          hC.pendingWd, hC.fifo, ?_, hC.chain, ?_, hC.termNodup, hC.termLt,
          hC.termDisj⟩
        · intro t ht
          injection ht with ht
          exact le_of_eq ht.symm
        · intro gt hgt
          obtain ⟨t, hlp, hle⟩ := hC.gLast gt hgt
          exact ⟨s.now, rfl, le_trans hle (hC.lastLe t hlp)⟩
      · have hstep : s.step (.processDirect cbVal) =
            { s with
              p := { s.p with
                     pending := rest
                     usedTokens := s.p.usedTokens + r.numTokens
                     lastProcess := some s.now
                     requests := updateReq s.p.requests rid
                       (fun q => { q with grantedBuf := 1, watchdog := true }) }
              directPending := s.directPending - 1
              granted := s.granted ++ [rid]
              grantTimes := s.grantTimes ++ [s.now] } := by
          simp only [Sys.step, if_pos hdir, hpc]
        rw [hstep]
        have hmem := lookupReq_mem hl
        have hridp : rid ∈ s.p.pending := by
          rw [hp]
          exact List.mem_cons_self _ _
        have hnodup1 : rid ∉ rest ∧ rest.Nodup := by
          have h2 := hC.pendingNodup
          rw [hp, List.nodup_cons] at h2
          exact h2
        refine ⟨?_, ?_, hnodup1.2, ?_, ?_, ?_, ?_, hC.chain, ?_, hC.termNodup,
          hC.termLt, ?_⟩
        · show (keys (updateReq s.p.requests rid
            (fun q => { q with grantedBuf := 1, watchdog := true }))).Nodup
          rw [keys_updateReq]
          exact hC.keysNodup
        · show ∀ e ∈ updateReq s.p.requests rid
            (fun q => { q with grantedBuf := 1, watchdog := true }),
            e.1 < s.nextId
          exact forall_mem_updateReq hC.keysLt (fun k q h => h)
        · show ∀ id ∈ rest, id ∈ keys (updateReq s.p.requests rid
            (fun q => { q with grantedBuf := 1, watchdog := true }))
          intro id hid
          rw [keys_updateReq]
          refine hC.pendingSub id ?_
          rw [hp]
          exact List.mem_cons_of_mem _ hid
        · show ∀ e ∈ updateReq s.p.requests rid
            (fun q => { q with grantedBuf := 1, watchdog := true }),
            (e.2.watchdog = false ↔ e.1 ∈ rest)
          intro e he
          rcases mem_updateReq_elim hC.keysNodup he with ⟨h2, h3⟩ | ⟨r0, h2, h3⟩
          · have h4 := hC.pendingWd e h2
            rw [hp, List.mem_cons] at h4
            rw [h4]
            constructor
            · rintro (h5 | h5)
              · exact absurd h5 h3
              · exact h5
            · exact Or.inr
          · rw [hl] at h2
            injection h2 with h2
            subst h2
            rw [h3]
            simp [hnodup1.1]
        · show s.submitted = (s.granted ++ [rid]) ++ rest
          rw [hC.fifo, hp, List.append_assoc]
          rfl
        · intro t ht
          injection ht with ht
          exact le_of_eq ht.symm
        · intro gt hgt
          obtain ⟨t, hlp, hle⟩ := hC.gLast gt hgt
          exact ⟨s.now, rfl, le_trans hle (hC.lastLe t hlp)⟩
        · show ∀ id ∈ s.terminated, id ∉ keys (updateReq s.p.requests rid
            (fun q => { q with grantedBuf := 1, watchdog := true }))
          intro id hid
          rw [keys_updateReq]
          exact hC.termDisj id hid
    · have hstep : s.step (.processDirect cbVal) = s := by
        simp only [Sys.step, if_neg hdir]
      rw [hstep]
      exact hC
  | wait rid =>
    rcases hl : lookupReq s.p.requests rid with _ | r
    · have hstep : s.step (.wait rid) = s := by
        simp only [Sys.step, hl]
      rw [hstep]
      exact hC
    · rcases hwr : waitUntilGrantedR r with ⟨b, r1⟩ | r1
      · have hstep : s.step (.wait rid) = s.setReq rid r1 := by
          simp only [Sys.step, hl, hwr]
        rw [hstep]
        rcases waitR_ret hwr with h2 | h2 <;>
          exact invC_setReq hC hl (by rw [h2])
      · have hstep : s.step (.wait rid) = s.setReq rid r1 := by
          simp only [Sys.step, hl, hwr]
        rw [hstep]
        exact invC_setReq hC hl (by rw [waitR_blocked hwr])
  | waitResume rid =>
    rcases hl : lookupReq s.p.requests rid with _ | r
    · have hstep : s.step (.waitResume rid) = s := by
        simp only [Sys.step, hl]
      rw [hstep]
      exact hC
    · by_cases hg2 : r.waiting = true ∧ r.grantedBuf > 0
      · have hstep : s.step (.waitResume rid) =
            s.setReq rid { r with grantedBuf := r.grantedBuf - 1, waiting := false } := by
          simp only [Sys.step, hl, if_pos hg2]
        rw [hstep]
        exact invC_setReq hC hl rfl
      · have hstep : s.step (.waitResume rid) = s := by
          simp only [Sys.step, hl, if_neg hg2]
        rw [hstep]
        exact hC
  | touch rid =>
    rcases hl : lookupReq s.p.requests rid with _ | r
    · have hstep : s.step (.touch rid) = s := by
        simp only [Sys.step, hl]
      rw [hstep]
      exact hC
    · rcases ht : touchR r with r1 | r1 | r1
      · have hstep : s.step (.touch rid) = s.setReq rid r1 := by
          simp only [Sys.step, hl, ht]
        rw [hstep]
        exact invC_setReq hC hl (by rw [touchR_noop ht])
      · have hstep : s.step (.touch rid) = s.setReq rid r1 := by
          simp only [Sys.step, hl, ht]
        rw [hstep]
        exact invC_setReq hC hl (by rw [touchR_sent ht])
      · have hstep : s.step (.touch rid) = s := by
          simp only [Sys.step, hl, ht]
        rw [hstep]
        exact hC
  | release rid =>
    rcases hl : lookupReq s.p.requests rid with _ | r
    · have hstep : s.step (.release rid) = s := by
        simp only [Sys.step, hl]
      rw [hstep]
      exact hC
    · rcases ht : releaseR r with r1 | r1 | r1
      · have hstep : s.step (.release rid) = s.setReq rid r1 := by
          simp only [Sys.step, hl, ht]
        rw [hstep]
        exact invC_setReq hC hl (by rw [releaseR_noop ht])
      · have hstep : s.step (.release rid) = s.setReq rid r1 := by
          simp only [Sys.step, hl, ht]
        rw [hstep]
        exact invC_setReq hC hl (by rw [releaseR_sent ht])
      · have hstep : s.step (.release rid) = s := by
          simp only [Sys.step, hl, ht]
        rw [hstep]
        exact hC
  | wdRelease rid =>
    rcases hl : lookupReq s.p.requests rid with _ | r
    · have hstep : s.step (.wdRelease rid) = s := by
        simp only [Sys.step, hl]
      rw [hstep]
      exact hC
    · by_cases hg2 : r.watchdog = true ∧ r.releaseBuf > 0
      · have hstep : s.step (.wdRelease rid) =
            s.terminal rid { r with releaseBuf := r.releaseBuf - 1 } := by
          simp only [Sys.step, hl, if_pos hg2]
        rw [hstep]
        exact invC_terminal hC hl hg2.1
      · have hstep : s.step (.wdRelease rid) = s := by
          simp only [Sys.step, hl, if_neg hg2]
        rw [hstep]
        exact hC
  | wdTimeout rid =>
    rcases hl : lookupReq s.p.requests rid with _ | r
    · have hstep : s.step (.wdTimeout rid) = s := by
        simp only [Sys.step, hl]
      rw [hstep]
      exact hC
    · by_cases hg2 : r.watchdog = true
      · have hstep : s.step (.wdTimeout rid) = s.terminal rid (finishedR r) := by
          simp only [Sys.step, hl, if_pos hg2]
        rw [hstep]
        exact invC_terminal hC hl hg2
      · have hstep : s.step (.wdTimeout rid) = s := by
          simp only [Sys.step, hl, if_neg hg2]
        rw [hstep]
        exact hC
  | wdAuto rid =>
    rcases hl : lookupReq s.p.requests rid with _ | r
    · have hstep : s.step (.wdAuto rid) = s := by
        simp only [Sys.step, hl]
      rw [hstep]
      exact hC
    · by_cases hg2 : r.watchdog = true
      · have hstep : s.step (.wdAuto rid) = s.terminal rid (finishedR r) := by
          simp only [Sys.step, hl, if_pos hg2]
        rw [hstep]
        exact invC_terminal hC hl hg2
      · have hstep : s.step (.wdAuto rid) = s := by
          simp only [Sys.step, hl, if_neg hg2]
        rw [hstep]
        exact hC
  | wdTouch rid =>
    rcases hl : lookupReq s.p.requests rid with _ | r
    · have hstep : s.step (.wdTouch rid) = s := by
        simp only [Sys.step, hl]
      rw [hstep]
      exact hC
    · by_cases hg2 : r.watchdog = true ∧ r.touchBuf > 0
      · have hstep : s.step (.wdTouch rid) =
            s.setReq rid { r with touchBuf := r.touchBuf - 1 } := by
          simp only [Sys.step, hl, if_pos hg2]
        rw [hstep]
        exact invC_setReq hC hl rfl
      · have hstep : s.step (.wdTouch rid) = s := by
          simp only [Sys.step, hl, if_neg hg2]
        rw [hstep]
        exact hC


/-- Every event whose submission (if any) carries a nonnegative token count
preserves the token-accounting invariant. -/
theorem invT_step (s : Sys) (e : Event) (hC : InvC s) (hT : InvT s)
    (hok : EventOk e) : InvT (s.step e) := by
  cases e with
  | tick d => exact ⟨hT.sum, hT.usedLe, hT.tokNonneg⟩
  | setCb b => exact ⟨hT.sum, hT.usedLe, hT.tokNonneg⟩
  | submit n auto =>
    have hok2 : 0 ≤ n := hok
    by_cases hg : n > s.p.maxTokens
    · have hstep : s.step (.submit n auto) = s := by
        simp only [Sys.step, Protector.request, if_pos hg]
      rw [hstep]
      exact hT
    · have hstep : s.step (.submit n auto) =
        { s with p := { s.p with pending := s.p.pending ++ [s.nextId]
                                 requests := (s.nextId, newReq n auto) :: s.p.requests }
                 nextId := s.nextId + 1
                 submitted := s.submitted ++ [s.nextId]
                 directPending := s.directPending +
                   (if s.p.lastProcess = none ∧
                       (s.p.pending ++ [s.nextId]).length = 1 then 1 else 0) } := by
        simp only [Sys.step, Protector.request, if_neg hg]
      rw [hstep]
      refine ⟨?_, hT.usedLe, ?_⟩
      · show s.p.usedTokens = wdSum ((s.nextId, newReq n auto) :: s.p.requests)
        rw [wdSum_cons]
        have hwd : (newReq n auto).watchdog = false := rfl
        rw [hwd]
        simp only [if_false, Bool.false_eq_true, ite_false, zero_add]
        exact hT.sum
      · show ∀ e ∈ (s.nextId, newReq n auto) :: s.p.requests, 0 ≤ e.2.numTokens
        intro e he
        rcases List.mem_cons.mp he with he1 | he1
        · subst he1
          exact hok2
        · exact hT.tokNonneg e he1
  | processRun cbVal =>
    by_cases hgate : reprocessWait s.p.lastProcess s.p.delayBetween s.now = 0
    · rcases process_cases s.p s.now cbVal with hpc | hpc |
        ⟨rid, rest, r, hp, hl, hused, hcap, hpc⟩
      · have hstep : s.step (.processRun cbVal) = s := by
          simp only [Sys.step, if_pos hgate, hpc]
        rw [hstep]
        exact hT
      · have hstep : s.step (.processRun cbVal) =
            { s with p := { s.p with lastProcess := some s.now } } := by
          simp only [Sys.step, if_pos hgate, hpc]
        rw [hstep]
        exact ⟨hT.sum, hT.usedLe, hT.tokNonneg⟩
      · have hstep : s.step (.processRun cbVal) =
            { s with
              p := { s.p with
                     pending := rest
                     usedTokens := s.p.usedTokens + r.numTokens
                     lastProcess := some s.now
                     requests := updateReq s.p.requests rid
                       (fun q => { q with grantedBuf := 1, watchdog := true }) }
              granted := s.granted ++ [rid]
              grantTimes := s.grantTimes ++ [s.now]
              gatedTimes := s.gatedTimes ++ [s.now] } := by
          simp only [Sys.step, if_pos hgate, hpc]
        rw [hstep]
        have hridp : rid ∈ s.p.pending := by
          rw [hp]
          exact List.mem_cons_self _ _
        have hwdf : r.watchdog = false :=
          (hC.pendingWd _ (lookupReq_mem hl)).mpr hridp
        refine ⟨?_, ?_, ?_⟩
        · show s.p.usedTokens + r.numTokens = wdSum (updateReq s.p.requests rid
            (fun q => { q with grantedBuf := 1, watchdog := true }))
          rw [wdSum_updateReq_grant hC.keysNodup hl hwdf, hT.sum]
        · show s.p.usedTokens + r.numTokens ≤ s.p.maxTokens
          have h1 := hT.usedLe
          by_cases h2 : 1 < r.numTokens
          · have h3 := hcap h2
            omega
          · omega
        · show ∀ e ∈ updateReq s.p.requests rid
            (fun q => { q with grantedBuf := 1, watchdog := true }),
            0 ≤ e.2.numTokens
          refine forall_mem_updateReq1 hC.keysNodup hl hT.tokNonneg ?_
          show 0 ≤ r.numTokens
          exact hT.tokNonneg _ (lookupReq_mem hl)
    · have hstep : s.step (.processRun cbVal) = s := by
        simp only [Sys.step, if_neg hgate]
      rw [hstep]
      exact hT
  | processDirect cbVal =>
    by_cases hdir : s.directPending > 0
    · rcases process_cases s.p s.now cbVal with hpc | hpc |
        ⟨rid, rest, r, hp, hl, hused, hcap, hpc⟩
      · have hstep : s.step (.processDirect cbVal) =
            { s with directPending := s.directPending - 1 } := by
          simp only [Sys.step, if_pos hdir, hpc]
        rw [hstep]
        exact ⟨hT.sum, hT.usedLe, hT.tokNonneg⟩
      · have hstep : s.step (.processDirect cbVal) =
            { s with p := { s.p with lastProcess := some s.now }
                     directPending := s.directPending - 1 } := by
          simp only [Sys.step, if_pos hdir, hpc]
        rw [hstep]
        exact ⟨hT.sum, hT.usedLe, hT.tokNonneg⟩
      · have hstep : s.step (.processDirect cbVal) =
            { s with
              p := { s.p with
                     pending := rest
                     usedTokens := s.p.usedTokens + r.numTokens
                     lastProcess := some s.now
                     requests := updateReq s.p.requests rid
                       (fun q => { q with grantedBuf := 1, watchdog := true }) }
              directPending := s.directPending - 1
              granted := s.granted ++ [rid]
              grantTimes := s.grantTimes ++ [s.now] } := by
          simp only [Sys.step, if_pos hdir, hpc]
        rw [hstep]
        have hridp : rid ∈ s.p.pending := by
          rw [hp]
          exact List.mem_cons_self _ _
        have hwdf : r.watchdog = false :=
          (hC.pendingWd _ (lookupReq_mem hl)).mpr hridp
        refine ⟨?_, ?_, ?_⟩
        · show s.p.usedTokens + r.numTokens = wdSum (updateReq s.p.requests rid
            (fun q => { q with grantedBuf := 1, watchdog := true }))
          rw [wdSum_updateReq_grant hC.keysNodup hl hwdf, hT.sum]
        · show s.p.usedTokens + r.numTokens ≤ s.p.maxTokens
          have h1 := hT.usedLe
          by_cases h2 : 1 < r.numTokens
          · have h3 := hcap h2
            omega
          · omega
        · show ∀ e ∈ updateReq s.p.requests rid
            (fun q => { q with grantedBuf := 1, watchdog := true }),
            0 ≤ e.2.numTokens
          refine forall_mem_updateReq1 hC.keysNodup hl hT.tokNonneg ?_
          show 0 ≤ r.numTokens
          exact hT.tokNonneg _ (lookupReq_mem hl)
    · have hstep : s.step (.processDirect cbVal) = s := by
        simp only [Sys.step, if_neg hdir]
      rw [hstep]
      exact hT
  | wait rid =>
    rcases hl : lookupReq s.p.requests rid with _ | r
    · have hstep : s.step (.wait rid) = s := by
        simp only [Sys.step, hl]
      rw [hstep]
      exact hT
    · rcases hwr : waitUntilGrantedR r with ⟨b, r1⟩ | r1
      · have hstep : s.step (.wait rid) = s.setReq rid r1 := by
          simp only [Sys.step, hl, hwr]
        rw [hstep]
        rcases waitR_ret hwr with h2 | h2 <;>
          exact invT_setReq hC hT hl (by rw [h2]) (by rw [h2])
      · have hstep : s.step (.wait rid) = s.setReq rid r1 := by
          simp only [Sys.step, hl, hwr]
        rw [hstep]
        exact invT_setReq hC hT hl (by rw [waitR_blocked hwr])
          (by rw [waitR_blocked hwr])
  | waitResume rid =>
    rcases hl : lookupReq s.p.requests rid with _ | r
    · have hstep : s.step (.waitResume rid) = s := by
        simp only [Sys.step, hl]
      rw [hstep]
      exact hT
    · by_cases hg2 : r.waiting = true ∧ r.grantedBuf > 0
      · have hstep : s.step (.waitResume rid) =
            s.setReq rid { r with grantedBuf := r.grantedBuf - 1, waiting := false } := by
          simp only [Sys.step, hl, if_pos hg2]
        rw [hstep]
        exact invT_setReq hC hT hl rfl rfl
      · have hstep : s.step (.waitResume rid) = s := by
          simp only [Sys.step, hl, if_neg hg2]
        rw [hstep]
        exact hT
  | touch rid =>
    rcases hl : lookupReq s.p.requests rid with _ | r
    · have hstep : s.step (.touch rid) = s := by
        simp only [Sys.step, hl]
      rw [hstep]
      exact hT
    · rcases ht : touchR r with r1 | r1 | r1
      · have hstep : s.step (.touch rid) = s.setReq rid r1 := by
          simp only [Sys.step, hl, ht]
        rw [hstep]
        exact invT_setReq hC hT hl (by rw [touchR_noop ht]) (by rw [touchR_noop ht])
      · have hstep : s.step (.touch rid) = s.setReq rid r1 := by
          simp only [Sys.step, hl, ht]
        rw [hstep]
        exact invT_setReq hC hT hl (by rw [touchR_sent ht]) (by rw [touchR_sent ht])
      · have hstep : s.step (.touch rid) = s := by
          simp only [Sys.step, hl, ht]
        rw [hstep]
        exact hT
  | release rid =>
    rcases hl : lookupReq s.p.requests rid with _ | r
    · have hstep : s.step (.release rid) = s := by
        simp only [Sys.step, hl]
      rw [hstep]
      exact hT
    · rcases ht : releaseR r with r1 | r1 | r1
      · have hstep : s.step (.release rid) = s.setReq rid r1 := by
          simp only [Sys.step, hl, ht]
        rw [hstep]
        exact invT_setReq hC hT hl (by rw [releaseR_noop ht])
          (by rw [releaseR_noop ht])
      · have hstep : s.step (.release rid) = s.setReq rid r1 := by
          simp only [Sys.step, hl, ht]
        rw [hstep]
        exact invT_setReq hC hT hl (by rw [releaseR_sent ht])
          (by rw [releaseR_sent ht])
      · have hstep : s.step (.release rid) = s := by
          simp only [Sys.step, hl, ht]
        rw [hstep]
        exact hT
  | wdRelease rid =>
    rcases hl : lookupReq s.p.requests rid with _ | r
    · have hstep : s.step (.wdRelease rid) = s := by
        simp only [Sys.step, hl]
      rw [hstep]
      exact hT
    · by_cases hg2 : r.watchdog = true ∧ r.releaseBuf > 0
      · have hstep : s.step (.wdRelease rid) =
            s.terminal rid { r with releaseBuf := r.releaseBuf - 1 } := by
          simp only [Sys.step, hl, if_pos hg2]
        rw [hstep]
        exact invT_terminal hC hT hl hg2.1 rfl
      · have hstep : s.step (.wdRelease rid) = s := by
          simp only [Sys.step, hl, if_neg hg2]
        rw [hstep]
        exact hT
  | wdTimeout rid =>
    rcases hl : lookupReq s.p.requests rid with _ | r
    · have hstep : s.step (.wdTimeout rid) = s := by
        simp only [Sys.step, hl]
      rw [hstep]
      exact hT
    · by_cases hg2 : r.watchdog = true
      · have hstep : s.step (.wdTimeout rid) = s.terminal rid (finishedR r) := by
          simp only [Sys.step, hl, if_pos hg2]
        rw [hstep]
        exact invT_terminal hC hT hl hg2 rfl
      · have hstep : s.step (.wdTimeout rid) = s := by
          simp only [Sys.step, hl, if_neg hg2]
        rw [hstep]
        exact hT
  | wdAuto rid =>
    rcases hl : lookupReq s.p.requests rid with _ | r
    · have hstep : s.step (.wdAuto rid) = s := by
        simp only [Sys.step, hl]
      rw [hstep]
      exact hT
    · by_cases hg2 : r.watchdog = true
      · have hstep : s.step (.wdAuto rid) = s.terminal rid (finishedR r) := by
          simp only [Sys.step, hl, if_pos hg2]
        rw [hstep]
        exact invT_terminal hC hT hl hg2 rfl
      · have hstep : s.step (.wdAuto rid) = s := by
          simp only [Sys.step, hl, if_neg hg2]
        rw [hstep]
        exact hT
  | wdTouch rid =>
    rcases hl : lookupReq s.p.requests rid with _ | r
    · have hstep : s.step (.wdTouch rid) = s := by
        simp only [Sys.step, hl]
      rw [hstep]
      exact hT
    · by_cases hg2 : r.watchdog = true ∧ r.touchBuf > 0
      · have hstep : s.step (.wdTouch rid) =
            s.setReq rid { r with touchBuf := r.touchBuf - 1 } := by
          simp only [Sys.step, hl, if_pos hg2]
        rw [hstep]
        exact invT_setReq hC hT hl rfl rfl
      · have hstep : s.step (.wdTouch rid) = s := by
          simp only [Sys.step, hl, if_neg hg2]
        rw [hstep]
        exact hT

/-- The structural invariant holds initially. -/
theorem invC_init (name : String) (d : Nat) (mx : Int) (rt : Nat) :
    InvC (Sys.init name d mx rt) := by
  refine ⟨?_, ?_, ?_, ?_, ?_, rfl, ?_, ?_, ?_, ?_, ?_, ?_⟩ <;>
    simp [Sys.init, Protector.new, keys_nil, List.chain'_nil]

/-- The token invariant holds initially whenever the protector is constructed
with a nonnegative capacity. -/
theorem invT_init (name : String) (d : Nat) (mx : Int) (rt : Nat)
    (hmx : 0 ≤ mx) : InvT (Sys.init name d mx rt) := by
  refine ⟨rfl, hmx, ?_⟩
  intro e he
  simp [Sys.init, Protector.new] at he

/-- The structural invariant holds after any run from any invariant state. -/
theorem invC_run (s : Sys) (evs : List Event) (hC : InvC s) :
    InvC (s.run evs) := by
  induction evs generalizing s with
  | nil => exact hC
  | cons e rest ih => exact ih _ (invC_step s e hC)

/-- The token invariant holds after any run whose submissions all carry a
nonnegative token count. -/
theorem invT_run (s : Sys) (evs : List Event) (hC : InvC s) (hT : InvT s)
    (hok : ∀ e ∈ evs, EventOk e) : InvT (s.run evs) := by
  induction evs generalizing s with
  | nil => exact hT
  | cons e rest ih =>
    exact ih _ (invC_step s e hC) (invT_step s e hC hT (hok e (List.mem_cons_self _ _)))
      (fun e2 he2 => hok e2 (List.mem_cons_of_mem _ he2))


theorem step_frame (s : Sys) (e : Event) :
    (s.step e).p.delayBetween = s.p.delayBetween ∧
    (s.step e).p.maxTokens = s.p.maxTokens := by
  cases e with
  | tick d => trivial
  | setCb b => trivial
  | submit n auto =>
    have hreq : (s.p.request s.nextId n auto).prot.delayBetween = s.p.delayBetween ∧
        (s.p.request s.nextId n auto).prot.maxTokens = s.p.maxTokens := by
      simp only [Protector.request]
      split <;> trivial
    simp only [Sys.step]
    cases h : (s.p.request s.nextId n auto).err <;> simp only [h] <;> exact hreq
  | processRun cbVal =>
    have hproc : (s.p.process s.now cbVal).1.delayBetween = s.p.delayBetween ∧
        (s.p.process s.now cbVal).1.maxTokens = s.p.maxTokens := by
      rcases process_cases s.p s.now cbVal with hpc | hpc |
        ⟨rid, rest, r, hp, hl, hused, hcap, hpc⟩ <;> rw [hpc] <;> trivial
    simp only [Sys.step]
    split
    · cases hg : (s.p.process s.now cbVal).2.granted <;> simp only [hg] <;>
        exact hproc
    · trivial
  | processDirect cbVal =>
    have hproc : (s.p.process s.now cbVal).1.delayBetween = s.p.delayBetween ∧
        (s.p.process s.now cbVal).1.maxTokens = s.p.maxTokens := by
      rcases process_cases s.p s.now cbVal with hpc | hpc |
        ⟨rid, rest, r, hp, hl, hused, hcap, hpc⟩ <;> rw [hpc] <;> trivial
    simp only [Sys.step]
    split
    · cases hg : (s.p.process s.now cbVal).2.granted <;> simp only [hg] <;>
        exact hproc
    · trivial
  | wait rid =>
    rcases hl : lookupReq s.p.requests rid with _ | r
    · simp only [Sys.step, hl]
      trivial
    · rcases hwr : waitUntilGrantedR r with ⟨b, r1⟩ | r1 <;>
        simp only [Sys.step, hl, hwr] <;> trivial
  | waitResume rid =>
    rcases hl : lookupReq s.p.requests rid with _ | r
    · simp only [Sys.step, hl]
      trivial
    · by_cases hg2 : r.waiting = true ∧ r.grantedBuf > 0
      · simp only [Sys.step, hl, if_pos hg2]
        trivial
      · simp only [Sys.step, hl, if_neg hg2]
        trivial
  | touch rid =>
    rcases hl : lookupReq s.p.requests rid with _ | r
    · simp only [Sys.step, hl]
      trivial
    · rcases ht : touchR r with r1 | r1 | r1 <;>
        simp only [Sys.step, hl, ht] <;> trivial
  | release rid =>
    rcases hl : lookupReq s.p.requests rid with _ | r
    · simp only [Sys.step, hl]
      trivial
    · rcases ht : releaseR r with r1 | r1 | r1 <;>
        simp only [Sys.step, hl, ht] <;> trivial
  | wdRelease rid =>
    rcases hl : lookupReq s.p.requests rid with _ | r
    · simp only [Sys.step, hl]
      trivial
    · by_cases hg2 : r.watchdog = true ∧ r.releaseBuf > 0
      · simp only [Sys.step, hl, if_pos hg2]
        trivial
      · simp only [Sys.step, hl, if_neg hg2]
        trivial
  | wdTimeout rid =>
    rcases hl : lookupReq s.p.requests rid with _ | r
    · simp only [Sys.step, hl]
      trivial
    · by_cases hg2 : r.watchdog = true
      · simp only [Sys.step, hl, if_pos hg2]
        trivial
      · simp only [Sys.step, hl, if_neg hg2]
        trivial
  | wdAuto rid =>
    rcases hl : lookupReq s.p.requests rid with _ | r
    · simp only [Sys.step, hl]
      trivial
    · by_cases hg2 : r.watchdog = true
      · simp only [Sys.step, hl, if_pos hg2]
        trivial
      · simp only [Sys.step, hl, if_neg hg2]
        trivial
  | wdTouch rid =>
    rcases hl : lookupReq s.p.requests rid with _ | r
    · simp only [Sys.step, hl]
      trivial
    · by_cases hg2 : r.watchdog = true ∧ r.touchBuf > 0
      · simp only [Sys.step, hl, if_pos hg2]
        trivial
      · simp only [Sys.step, hl, if_neg hg2]
        trivial

theorem run_frame (s : Sys) (evs : List Event) :
    (s.run evs).p.delayBetween = s.p.delayBetween ∧
    (s.run evs).p.maxTokens = s.p.maxTokens := by
  induction evs generalizing s with
  | nil => exact ⟨rfl, rfl⟩
  | cons e rest ih =>
    have h1 := step_frame s e
    have h2 := ih (s.step e)
    exact ⟨h2.1.trans h1.1, h2.2.trans h1.2⟩

/-- C1 (counterexample): as stated, the claim is false. `Request` accepts
`numTokens = -1` (its only guard is `numTokens > maxTokens`), the scheduling
pass grants it (the capacity check only applies when `numTokens > 1`), and
`usedTokens` becomes -1 < 0. -/
theorem c1_counterexample :
    ((Protector.new "r" 0 1 10).request 1 (-1) none).err = none ∧
    (Sys.run (Sys.init "r" 0 1 10)
      [.submit (-1) none, .processRun 0]).p.usedTokens < 0 := by
  constructor
  · rfl
  · decide

/-- C1 (amended): over every interleaving of request, grant, touch, release
and watchdog-termination steps in which each accepted submission carries a
NONNEGATIVE `numTokens`, and for a protector constructed with
`maxSimultaneous ≥ 1`, the invariant `0 ≤ usedTokens ≤ maxTokens` holds
outside critical sections. -/
theorem c1_used_tokens_bounds (name : String) (d : Nat) (mx : Int) (rt : Nat)
    (evs : List Event) (hmx : 1 ≤ mx) (hok : ∀ e ∈ evs, EventOk e) :
    0 ≤ (Sys.run (Sys.init name d mx rt) evs).p.usedTokens ∧
    (Sys.run (Sys.init name d mx rt) evs).p.usedTokens ≤ mx := by
  have hC := invC_init name d mx rt
  have hT := invT_run _ evs hC (invT_init name d mx rt (by omega)) hok
  refine ⟨?_, ?_⟩
  · rw [hT.sum]
    exact wdSum_nonneg hT.tokNonneg
  · have h2 := (run_frame (Sys.init name d mx rt) evs).2
    have h3 := hT.usedLe
    rw [h2] at h3
    exact h3

/-- C1 witness: the amended bound at a concrete run. -/
theorem c1_witness :
    0 ≤ (Sys.run (Sys.init "r" 0 2 10)
      [.submit 1 none, .processRun 0, .submit 2 none, .processRun 0]).p.usedTokens ∧
    (Sys.run (Sys.init "r" 0 2 10)
      [.submit 1 none, .processRun 0, .submit 2 none, .processRun 0]).p.usedTokens ≤ 2 :=
  c1_used_tokens_bounds "r" 0 2 10
    [.submit 1 none, .processRun 0, .submit 2 none, .processRun 0]
    (by decide)
    (by
      intro e he
      rcases List.mem_cons.mp he with h | h
      · subst h; exact (by decide : (0 : Int) ≤ 1)
      rcases List.mem_cons.mp h with h | h
      · subst h; trivial
      rcases List.mem_cons.mp h with h | h
      · subst h; exact (by decide : (0 : Int) ≤ 2)
      rcases List.mem_cons.mp h with h | h
      · subst h; trivial
      · simp at h)

/-- C3: grants are strictly FIFO with respect to submission order: on every
run, the submission history equals the grant history followed by the still
pending queue, so the sequence of granted request ids is a prefix of the
sequence of submitted ids, in order. -/
theorem c3_fifo_grants (name : String) (d : Nat) (mx : Int) (rt : Nat)
    (evs : List Event) :
    (Sys.run (Sys.init name d mx rt) evs).submitted =
      (Sys.run (Sys.init name d mx rt) evs).granted ++
        (Sys.run (Sys.init name d mx rt) evs).p.pending :=
  (invC_run _ evs (invC_init name d mx rt)).fifo


/-- C4: `Request(numTokens)` fails with the OverMaximumTokens error exactly
when `numTokens > maxTokens`; on failure it synchronously returns the empty
receipt together with the error and leaves the protector unchanged (the
rejected request is never added to `pending` or the `requests` map); on
success it returns the fresh receipt, no error, and the protector with the
request appended to the pending queue and inserted into the map. -/
theorem c4_request_over_max (p : Protector) (fresh : Receipt) (n : Int)
    (a : Option Nat) :
    ((p.request fresh n a).err.isSome = true ↔ p.maxTokens < n) ∧
    (p.maxTokens < n →
      p.request fresh n a =
        ⟨p, emptyReceipt,
         some ⟨p.name, "Request", emptyReceipt, ErrOverMaximumTokens⟩⟩) ∧
    (¬ p.maxTokens < n →
      p.request fresh n a =
        ⟨{ p with pending := p.pending ++ [fresh]
                  requests := (fresh, newReq n a) :: p.requests },
         fresh, none⟩) := by
  unfold Protector.request
  by_cases h : n > p.maxTokens
  · rw [if_pos h]
    exact ⟨by simp [h], fun _ => rfl, fun h2 => absurd h h2⟩
  · rw [if_neg h]
    exact ⟨by simp [h], fun h2 => absurd h2 h, fun _ => rfl⟩

/-- C4 witness: a request for 3 of 2 tokens errors; a request for 2 of 2 is
enqueued. -/
theorem c4_witness :
    ((Protector.new "x" 0 2 5).request 1 3 none).err.isSome = true ∧
    ((Protector.new "x" 0 2 5).request 1 2 none).prot.pending = [1] := by
  constructor
  · exact (c4_request_over_max (Protector.new "x" 0 2 5) 1 3 none).1.mpr (by decide)
  · rw [(c4_request_over_max (Protector.new "x" 0 2 5) 1 2 none).2.2 (by decide)]
    rfl

/-- C5 (counterexample): the claim is false on the code: a `Request` with
`numTokens = 0` is accepted (the only guard is `numTokens > maxTokens`, and
0 ≤ maxTokens) and IS enqueued, not rejected. -/
theorem c5_counterexample :
    ((Protector.new "r" 0 1 10).request 1 0 none).err = none ∧
    ((Protector.new "r" 0 1 10).request 1 0 none).prot.pending = [1] :=
  ⟨rfl, rfl⟩

/-- C5 (amended): a call to Request with `numTokens = 0` on a protector with
nonnegative `maxTokens` is ACCEPTED without error and appended to the pending
queue (the source guard `numTokens > maxTokens` does not reject zero). -/
theorem c5_zero_tokens_accepted (p : Protector) (fresh : Receipt)
    (a : Option Nat) (hmx : 0 ≤ p.maxTokens) :
    (p.request fresh 0 a).err = none ∧
    (p.request fresh 0 a).prot.pending = p.pending ++ [fresh] := by
  unfold Protector.request
  rw [if_neg (by omega)]
  exact ⟨rfl, rfl⟩

/-- C5 witness: the amended statement at a concrete protector. -/
theorem c5_witness :
    ((Protector.new "q" 0 3 10).request 1 0 none).err = none ∧
    ((Protector.new "q" 0 3 10).request 1 0 none).prot.pending = [] ++ [1] :=
  c5_zero_tokens_accepted (Protector.new "q" 0 3 10) 1 none (by decide)

/-- Modelled from the spec, for comparison only: the two-sided clamp of the
probe return into [0, maxTokens] that the claim asserts. -/
def specClamp (maxTokens v : Int) : Int := max 0 (min v maxTokens)

/-- C6 (counterexample): the source clamps only from above. With the callback
installed on a protector with maxTokens = 1 and the callback returning -1,
the value the scheduling pass uses is -1, not the two-sided spec clamp 0. -/
theorem c6_counterexample :
    (({ Protector.new "r" 0 1 10 with hasCb := true }).availableTokens (-1)).1 = -1 ∧
    specClamp 1 (-1) = 0 ∧
    (({ Protector.new "r" 0 1 10 with hasCb := true }).availableTokens (-1)).1 ≠
      specClamp 1 (-1) := by
  refine ⟨rfl, rfl, ?_⟩
  decide

/-- C6 (amended): with a callback installed, the value the scheduling pass
uses is `min(return, maxTokens)`: a return above maxTokens is reduced to
maxTokens, and a negative return is passed through unchanged (not raised
to 0); with no callback installed the pass gets `(0, false)`. The callback is
consulted at most once per pass: `Protector.process` consumes a single oracle
value per invocation. -/
theorem c6_upper_clamp_only (p : Protector) (v : Int) :
    (p.hasCb = true → p.availableTokens v = (min v p.maxTokens, true)) ∧
    (p.hasCb = false → p.availableTokens v = (0, false)) := by
  unfold Protector.availableTokens
  constructor
  · intro h
    rw [if_pos h]
    have hmin : (if v > p.maxTokens then p.maxTokens else v) = min v p.maxTokens := by
      by_cases h2 : v > p.maxTokens
      · rw [if_pos h2, min_eq_right (le_of_lt h2)]
      · rw [if_neg h2, min_eq_left (not_lt.mp h2)]
    rw [hmin]
  · intro h
    rw [if_neg (by simp [h])]

/-- C6 witness: the amended clamp at a concrete protector and return value. -/
theorem c6_witness :
    ({ Protector.new "w" 0 5 10 with hasCb := true }).availableTokens 9 =
      (min 9 5, true) :=
  (c6_upper_clamp_only { Protector.new "w" 0 5 10 with hasCb := true } 9).1 rfl

/-- C7: when a scheduling pass consults the probe and the clamped result is
smaller than the numTokens of the head request, the pass does not grant, sets
`lastProcess = now` (so the next attempt waits a full delayBetween),
schedules a deferred reprocess, and changes no other protector state
(pending, usedTokens and the requests map are untouched). -/
theorem c7_probe_denial_frame (p : Protector) (now : Nat) (cbVal : Int)
    (rid : Receipt) (rest : List Receipt) (r : Req)
    (hp : p.pending = rid :: rest) (hl : lookupReq p.requests rid = some r)
    (hu : p.usedTokens ≠ p.maxTokens) (hcb : p.hasCb = true)
    (hav : (p.availableTokens cbVal).1 < r.numTokens) :
    p.process now cbVal = ({ p with lastProcess := some now }, ⟨none, true⟩) := by
  have hchecked : (p.availableTokens cbVal).2 = true := by
    unfold Protector.availableTokens
    rw [if_pos hcb]
  have hlen : ¬(p.usedTokens = p.maxTokens ∨ (rid :: rest).length = 0) := by
    push_neg
    exact ⟨hu, by simp⟩
  simp only [Protector.process, hp, if_neg hlen, hl,
    if_pos (And.intro hchecked hav)]

def pC7 : Protector :=
  { name := "w", maxTokens := 3, usedTokens := 0, delayBetween := 0,
    releaseTimeout := 10, requests := [(1, newReq 2 none)], pending := [1],
    lastProcess := none, reprocessing := false, hasCb := true }

/-- C7 witness: a concrete probe denial. -/
theorem c7_witness :
    pC7.process 5 1 = ({ pC7 with lastProcess := some 5 }, ⟨none, true⟩) :=
  c7_probe_denial_frame pC7 5 1 1 [] (newReq 2 none) rfl rfl (by decide) rfl
    (by decide)

def rC8 : Req := { newReq 1 none with active := true, watchdog := true, touchBuf := 1 }

/-- C8 (counterexample): the non-blocking clause of the claim is false on the
code: Touch on an active, not-done request whose previous touch signal is
still unconsumed BLOCKS (the source sends unconditionally on the capacity-1
channel while holding the request mutex) instead of being dropped as a
no-op. -/
theorem c8_counterexample :
    touchR rC8 = .blocked rC8 ∧ touchR rC8 ≠ .noop rC8 := by
  constructor
  · rfl
  · decide

/-- C8 (amended): Touch signals the watchdog iff the request is active, not
done and the touch buffer is free; it is a no-op when not active or done, and
at the protector level an unknown receipt leaves the system unchanged; but
when active and not done with the previous signal unconsumed the send BLOCKS
(rather than being dropped). -/
theorem c8_touch_spec (r : Req) (s : Sys) (rid : Receipt) :
    (¬(r.active = true ∧ r.done = false) → touchR r = .noop r) ∧
    (r.active = true → r.done = false → r.touchBuf = 0 →
      touchR r = .sent { r with touchBuf := 1 }) ∧
    (r.active = true → r.done = false → r.touchBuf ≠ 0 →
      touchR r = .blocked r) ∧
    (lookupReq s.p.requests rid = none → s.step (.touch rid) = s) := by
  refine ⟨?_, ?_, ?_, ?_⟩
  · intro h
    unfold touchR
    have hcond : (!r.active || r.done) = true := by
      cases ha : r.active <;> cases hd : r.done <;> simp_all
    rw [if_pos hcond]
  · intro ha hd ht
    unfold touchR
    rw [if_neg (by simp [ha, hd]), if_pos ht]
  · intro ha hd ht
    unfold touchR
    rw [if_neg (by simp [ha, hd]), if_neg ht]
  · intro hl
    simp only [Sys.step, hl]

/-- C8 witness: the signal branch at a concrete request, and the unknown
receipt no-op at a concrete system. -/
theorem c8_witness :
    touchR { newReq 1 none with active := true } =
      .sent { newReq 1 none with active := true, touchBuf := 1 } :=
  (c8_touch_spec { newReq 1 none with active := true }
    (Sys.init "r" 0 1 10) 7).2.1 rfl rfl rfl

/-- C9: the usedTokens decrement of a request happens at most once over its
lifetime (the terminal history of any run is duplicate-free), and a Release
after the watchdog has taken a terminal branch for that request is a complete
no-op: the terminal branch removed the request from the map, so the Release
step leaves the entire system state unchanged and sends no signal. -/
theorem c9_release_after_terminal (name : String) (d : Nat) (mx : Int)
    (rt : Nat) (evs : List Event) (rid : Receipt) :
    List.count rid (Sys.run (Sys.init name d mx rt) evs).terminated ≤ 1 ∧
    (rid ∈ (Sys.run (Sys.init name d mx rt) evs).terminated →
      (Sys.run (Sys.init name d mx rt) evs).step (.release rid) =
        Sys.run (Sys.init name d mx rt) evs) := by
  have hC := invC_run _ evs (invC_init name d mx rt)
  constructor
  · exact List.nodup_iff_count_le_one.mp hC.termNodup rid
  · intro hmem
    have hl : lookupReq (Sys.run (Sys.init name d mx rt) evs).p.requests rid
        = none := lookupReq_eq_none (hC.termDisj rid hmem)
    simp only [Sys.step, hl]

/-- C9 witness: grant, wait, release, watchdog-consume, then a second release
is a no-op on the whole system state. -/
theorem c9_witness :
    (Sys.run (Sys.init "r" 0 1 10)
      [.submit 1 none, .processRun 0, .wait 1, .release 1, .wdRelease 1]).step
        (.release 1) =
    Sys.run (Sys.init "r" 0 1 10)
      [.submit 1 none, .processRun 0, .wait 1, .release 1, .wdRelease 1] :=
  (c9_release_after_terminal "r" 0 1 10
    [.submit 1 none, .processRun 0, .wait 1, .release 1, .wdRelease 1] 1).2
    (by decide)

theorem waitR_immediate (r : Req) (ha : r.active = false) (hd : r.done = false)
    (hb : r.grantedBuf = 1) :
    waitUntilGrantedR r = .ret true { r with active := true, grantedBuf := 0 } := by
  simp only [waitUntilGrantedR, ha, hd, hb]
  rfl

/-- C10: the grant is delivered into the capacity-one buffered grantedCh, so
a WaitUntilGranted that first arrives after the scheduling pass has granted
the request (and before any terminal watchdog branch) still returns true
immediately: the stored request holds one buffered grant, and
waitUntilGranted consumes it, sets active, and returns true without
blocking. -/
theorem c10_wait_after_grant (p : Protector) (now : Nat) (cbVal : Int)
    (rid : Receipt) (r1 : Req)
    (hg : (p.process now cbVal).2.granted = some rid)
    (hl : lookupReq (p.process now cbVal).1.requests rid = some r1)
    (ha : r1.active = false) (hd : r1.done = false) :
    r1.grantedBuf = 1 ∧
    waitUntilGrantedR r1 = .ret true { r1 with active := true, grantedBuf := 0 } := by
  rcases process_cases p now cbVal with hpc | hpc |
    ⟨rid2, rest, r, hp, hl2, hu, hcap, hpc⟩
  · rw [hpc] at hg
    exact Option.noConfusion hg
  · rw [hpc] at hg
    exact Option.noConfusion hg
  · rw [hpc] at hg hl
    have hg2 : some rid2 = some rid := hg
    injection hg2 with hg2
    subst hg2
    have hl3 : lookupReq (updateReq p.requests rid2
        (fun q => { q with grantedBuf := 1, watchdog := true })) rid2
        = some r1 := hl
    rw [lookupReq_updateReq_self, hl2] at hl3
    have hl4 : some { r with grantedBuf := 1, watchdog := true } = some r1 := hl3
    injection hl4 with hl4
    have hb : r1.grantedBuf = 1 := by rw [← hl4]
    exact ⟨hb, waitR_immediate r1 ha hd hb⟩

def pC10 : Protector :=
  { name := "w", maxTokens := 3, usedTokens := 0, delayBetween := 0,
    releaseTimeout := 10, requests := [(1, newReq 2 none)], pending := [1],
    lastProcess := none, reprocessing := false, hasCb := false }

/-- C10 witness: a concrete grant followed by a late waiter that returns true
immediately. -/
theorem c10_witness :
    ({ newReq 2 none with grantedBuf := 1, watchdog := true } : Req).grantedBuf = 1 ∧
    waitUntilGrantedR { newReq 2 none with grantedBuf := 1, watchdog := true } =
      .ret true { newReq 2 none with grantedBuf := 0, watchdog := true, active := true } :=
  c10_wait_after_grant pC10 0 0 1
    { newReq 2 none with grantedBuf := 1, watchdog := true }
    (by decide) (by decide) rfl rfl

end RP
